import Mathlib

/-!
Verification of the icebreaker delivery-reconciliation core.

The definitions below are a shallow embedding of the JavaScript source:
  * `parsePlanText`, `parseDeliveryReport`, `compareDeliveries` follow the
    self-contained serverless implementation (api function file), which is the
    canonical copy of the parsing/matching engine;
  * `tokenizeCompound` follows the compound-quantity branch of
    `parseDeliveryReport` in `plan-comparison.js` (the marker-ordered scans);
  * `fulfillmentRateHandler` follows the summary computation of the serverless
    handler, `fulfillmentRateGCR` the one of `generateComparisonReport` in
    `plan-comparison.js` (NaN is modelled as `none`).

Strings are modelled as `List Char`.  JavaScript `toLowerCase` is modelled on
the ASCII range (the Arabic client names are caseless), `\s` by `isWS`, and
`Math.round` exactly on rationals (`jsRound`).  Regular-expression matching is
modelled by the deterministic scanners that the concrete patterns of the
source reduce to (lazy leading group, greedy digit run, optional whitespace,
literal marker, optional negative lookahead).
-/

namespace Icebreaker

abbrev Name := List Char

/-- JavaScript `\s` (the whitespace characters relevant to the source's data). -/
def isWS (c : Char) : Bool :=
  c = ' ' || c = '\t' || c = '\n' || c = '\r' || c.toNat = 11 || c.toNat = 12

/-- Numeric value of a run of decimal digit characters. -/
def natOfDigits (ds : List Char) : Nat :=
  ds.foldl (fun a c => a * 10 + (c.toNat - '0'.toNat)) 0

/-- JavaScript `String.prototype.split` with a one-character separator. -/
def splitOnChar (sep : Char) : List Char → List (List Char)
  | [] => [[]]
  | c :: r =>
    match splitOnChar sep r with
    | [] => [[c]]
    | h :: t => if c = sep then [] :: h :: t else (c :: h) :: t

/-- JavaScript `String.prototype.trim`. -/
def trimWS (s : List Char) : List Char :=
  ((s.dropWhile isWS).reverse.dropWhile isWS).reverse

/-- JavaScript `hay.includes(needle)`: contiguous-substring containment. -/
def isSubstrOf (n : List Char) : List Char → Bool
  | [] => n.isEmpty
  | c :: t => n.isPrefixOf (c :: t) || isSubstrOf n t

/-- Name normalization of the source: `toLowerCase().replace(/\s+/g, '')`. -/
def normName (s : Name) : Name :=
  (s.map Char.toLower).filter (fun c => !isWS c)

/-- The tiered name-similarity score of the matching engine. -/
def nameScore (p d : Name) : Nat :=
  let pn := normName p
  let dn := normName d
  if pn = dn then 100
  else if isSubstrOf dn pn || isSubstrOf pn dn then 80
  else if pn.take 3 = dn.take 3 then 60
  else 0

/-- Per-product-code quantities (3KG, 5KG, V00, Cup). -/
structure Quantities where
  q3 : Int
  q5 : Int
  v0 : Int
  cup : Int
deriving DecidableEq, Repr

def qZero : Quantities := ⟨0, 0, 0, 0⟩

def qSub (a b : Quantities) : Quantities :=
  ⟨a.q3 - b.q3, a.q5 - b.q5, a.v0 - b.v0, a.cup - b.cup⟩

def qNeg (a : Quantities) : Quantities :=
  ⟨-a.q3, -a.q5, -a.v0, -a.cup⟩

/-- A record produced by the plan parser. -/
structure PlanClient where
  name : Name
  products : Quantities
  totalQuantity : Int
deriving DecidableEq, Repr

/-- A record produced by the delivery parser. -/
structure Delivery where
  clientName : Name
  d3 : Int
  d5 : Int
  dV : Int
  dCup : Int
  totalDelivered : Int
deriving DecidableEq, Repr

def deliveredQ (d : Delivery) : Quantities := ⟨d.d3, d.d5, d.dV, d.dCup⟩

/-- An entry of the master client directory. -/
structure MasterClient where
  name : Name
  location : Name
  isFreezr : Bool
deriving DecidableEq, Repr

inductive DeliveryStatus where
  | Delivered
  | Missed
  | Unplanned
deriving DecidableEq, Repr

inductive Action where
  | delivered
  | followup
  | urgent_followup
  | review
deriving DecidableEq, Repr

/-- One row of the reconciliation result. -/
structure ResultRow where
  clientName : Name
  deliveryStatus : DeliveryStatus
  hasFreezr : Bool
  zone : Name
  planned : Quantities
  delivered : Quantities
  variance : Quantities
  action : Action
deriving DecidableEq, Repr

/-- Directory lookup: `masterClients.find(mc => mName.includes(pName) || pName.includes(mName))`. -/
def findMaster (ms : List MasterClient) (nm : Name) : Option MasterClient :=
  ms.find? (fun mc =>
    isSubstrOf (normName nm) (normName mc.name) || isSubstrOf (normName mc.name) (normName nm))

/-- JavaScript `masterClient?.isFreezr || false`. -/
def mcFreezr : Option MasterClient → Bool
  | some m => m.isFreezr
  | none => false

def unknownZone : Name := "Unknown".data

/-- JavaScript `masterClient?.location || 'Unknown'` (an empty location is falsy). -/
def mcZone : Option MasterClient → Name
  | some m => if m.location.isEmpty then unknownZone else m.location
  | none => unknownZone

/-- The `deliveries.forEach` loop selecting the best-scoring unclaimed delivery:
state `(bestScore, bestMatch)` updated when `score > bestScore`. -/
def findBestAux (p : Name) (c : List Nat) :
    List Delivery → Nat → Nat × Option (Nat × Delivery) → Nat × Option (Nat × Delivery)
  | [], _, acc => acc
  | d :: ds, i, acc =>
    findBestAux p c ds (i + 1)
      (if i ∈ c then acc
       else if acc.1 < nameScore p d.clientName then (nameScore p d.clientName, some (i, d))
       else acc)

def findBest (p : Name) (ds : List Delivery) (c : List Nat) : Nat × Option (Nat × Delivery) :=
  findBestAux p c ds 0 (0, none)

/-- The `Delivered` result row pushed by the engine. -/
def deliveredRowMk (ms : List MasterClient) (p : PlanClient) (d : Delivery) : ResultRow :=
  let mc := findMaster ms p.name
  { clientName := p.name
    deliveryStatus := .Delivered
    hasFreezr := mcFreezr mc
    zone := mcZone mc
    planned := p.products
    delivered := deliveredQ d
    variance := qSub (deliveredQ d) p.products
    action := .delivered }

/-- The `Missed` result row pushed by the engine. -/
def missedRowMk (ms : List MasterClient) (p : PlanClient) : ResultRow :=
  let mc := findMaster ms p.name
  { clientName := p.name
    deliveryStatus := .Missed
    hasFreezr := mcFreezr mc
    zone := mcZone mc
    planned := p.products
    delivered := qZero
    variance := qNeg p.products
    action := if mcFreezr mc then .urgent_followup else .followup }

/-- The `Unplanned` result row pushed for an unclaimed delivery. -/
def unplannedRow (ms : List MasterClient) (d : Delivery) : ResultRow :=
  let mc := findMaster ms d.clientName
  { clientName := d.clientName
    deliveryStatus := .Unplanned
    hasFreezr := mcFreezr mc
    zone := mcZone mc
    planned := qZero
    delivered := deliveredQ d
    variance := deliveredQ d
    action := .review }

/-- One iteration of the `for (const planned of planClients)` loop:
claim the best unclaimed delivery when `bestMatch && bestScore >= 60`. -/
def processOne (ms : List MasterClient) (ds : List Delivery) (c : List Nat) (p : PlanClient) :
    ResultRow × List Nat :=
  match (findBest p.name ds c).2 with
  | some (i, d) =>
    if 60 ≤ (findBest p.name ds c).1 then (deliveredRowMk ms p d, c ++ [i])
    else (missedRowMk ms p, c)
  | none => (missedRowMk ms p, c)

/-- The full planned-clients loop, threading the claimed-index set. -/
def processAll (ms : List MasterClient) (ds : List Delivery) :
    List PlanClient → List Nat → List ResultRow × List Nat
  | [], c => ([], c)
  | p :: ps, c =>
    ((processOne ms ds c p).1 :: (processAll ms ds ps (processOne ms ds c p).2).1,
     (processAll ms ds ps (processOne ms ds c p).2).2)

/-- The trailing `deliveries.forEach` loop emitting `Unplanned` rows. -/
def unplannedFrom (ms : List MasterClient) (c : List Nat) : List Delivery → Nat → List ResultRow
  | [], _ => []
  | d :: ds, i =>
    if i ∈ c then unplannedFrom ms c ds (i + 1)
    else unplannedRow ms d :: unplannedFrom ms c ds (i + 1)

/-- The reconciliation engine `compareDeliveries(planClients, deliveries, masterClients)`. -/
def compareDeliveries (plan : List PlanClient) (ds : List Delivery) (ms : List MasterClient) :
    List ResultRow :=
  (processAll ms ds plan []).1 ++ unplannedFrom ms (processAll ms ds plan []).2 ds 0

/-- Modelled from the spec: the list of scores of the not-yet-claimed deliveries
(the engine's iteration order), used to compare the engine against the spec's
"take the maximum over every unclaimed delivered record". -/
def unclScoresFrom (p : Name) (c : List Nat) : List Delivery → Nat → List Nat
  | [], _ => []
  | d :: ds, i =>
    if i ∈ c then unclScoresFrom p c ds (i + 1)
    else nameScore p d.clientName :: unclScoresFrom p c ds (i + 1)

def maxList (l : List Nat) : Nat := l.foldr Nat.max 0

/-- Modelled from the spec: the maximal name-match score of a planned name
against the not-yet-claimed delivered records. -/
def specMaxScore (p : Name) (ds : List Delivery) (c : List Nat) : Nat :=
  maxList (unclScoresFrom p c ds 0)

/-! ## Parsers -/

def isDigitCh (c : Char) : Bool := '0' ≤ c && c ≤ '9'

/-- JavaScript `parseInt(x) || 0` (missing column, i.e. `undefined`, gives `NaN`,
hence `0`; otherwise sign and leading digit run). -/
def jsParseIntOr0 : Option (List Char) → Int
  | none => 0
  | some cs =>
    let t := cs.dropWhile isWS
    match t with
    | '-' :: r =>
      let ds := r.takeWhile isDigitCh
      if ds.isEmpty then 0 else -(natOfDigits ds : Int)
    | '+' :: r =>
      let ds := r.takeWhile isDigitCh
      if ds.isEmpty then 0 else (natOfDigits ds : Int)
    | r =>
      let ds := r.takeWhile isDigitCh
      if ds.isEmpty then 0 else (natOfDigits ds : Int)

/-- The record-emission guard shared by the plan-parser loop:
push only when `clientName.length > 1 && totalQty > 0`. -/
def finishPlan (nm : List Char) (q3 q5 v cup : Int) : Option PlanClient :=
  let total := q3 + q5 + v + cup
  if 1 < nm.length ∧ 0 < total then some ⟨nm, ⟨q3, q5, v, cup⟩, total⟩ else none

/-- One iteration of the `parsePlanText` line loop (tab-separated columns). -/
def planLineRecord (line : List Char) : Option PlanClient :=
  let l := trimWS line
  if l.length < 3 then none
  else
    let parts := ((splitOnChar '\t' l).map trimWS).filter (fun p => !p.isEmpty)
    if 2 ≤ parts.length then
      finishPlan (parts.getD 0 []) (jsParseIntOr0 parts[1]?) (jsParseIntOr0 parts[2]?)
        (jsParseIntOr0 parts[3]?) (jsParseIntOr0 parts[4]?)
    else none

/-- `parsePlanText`: split on newlines, parse each line, skip non-records. -/
def parsePlanText (txt : List Char) : List PlanClient :=
  (splitOnChar '\n' txt).filterMap planLineRecord

/-- Anchored tail of the pattern `\s*(\d+)\s*M`: optional whitespace, a
nonempty digit run, optional whitespace, then the literal marker `m`.
Returns the digit run.  (The greedy sub-patterns cannot backtrack usefully
because the markers start with a non-space non-digit character.) -/
def restMatch (m : List Char) (s : List Char) : Option (List Char) :=
  let r1 := s.dropWhile isWS
  let ds := r1.takeWhile isDigitCh
  if ds.isEmpty then none
  else
    let r2 := (r1.drop ds.length).dropWhile isWS
    if m.isPrefixOf r2 then some ds else none

/-- First match of `/(.+?)\s*(\d+)\s*M/` on a line: the lazy leading group takes
the shortest nonempty prefix whose remainder starts with `\s*(\d+)\s*M`.
Returns (group 1, group 2). -/
def firstMatchAux (m : List Char) : List Char → List Char → Option (List Char × List Char)
  | _, [] => none
  | pre, ch :: rest =>
    match restMatch m rest with
    | some ds => some (pre ++ [ch], ds)
    | none => firstMatchAux m (pre ++ [ch]) rest

def firstMatch (m : List Char) (line : List Char) : Option (List Char × List Char) :=
  firstMatchAux m [] line

/-- The character class `[0-9.\-\s]` stripped from the front of a client name. -/
def isNameNoise (c : Char) : Bool := isDigitCh c || c = '.' || c = '-' || isWS c

/-- The record-emission guard of the delivery-parser loop: clean the name and
push only when `clientName.length > 1 && totalDelivered > 0`. -/
def finishDelivery (nm : List Char) (q3 q5 : Int) (found : Bool) : Option Delivery :=
  if found && !nm.isEmpty then
    let cleaned := trimWS (nm.dropWhile isNameNoise)
    let total := q3 + q5 + 0 + 0
    if 1 < cleaned.length ∧ 0 < total then some ⟨cleaned, q3, q5, 0, 0, total⟩ else none
  else none

/-- One iteration of the `parseDeliveryReport` line loop: the four marker
patterns (`صغير`, `كبير`, then the single-letter `ص` and `ك` fallbacks),
threaded through the `clientName`/`quantities`/`foundMatch` state. -/
def parseDeliveryLine (line : List Char) : Option Delivery :=
  let l := trimWS line
  if l.length < 3 then none
  else
    let s1 : List Char × Int × Int × Bool :=
      match firstMatch "صغير".data l with
      | some nd => (trimWS nd.1, (natOfDigits nd.2 : Int), 0, true)
      | none => ([], 0, 0, false)
    let s2 : List Char × Int × Int × Bool :=
      match firstMatch "كبير".data l with
      | some nd =>
        ((if s1.1.isEmpty then trimWS nd.1 else s1.1), s1.2.1, (natOfDigits nd.2 : Int), true)
      | none => s1
    let s3 : List Char × Int × Int × Bool :=
      match firstMatch "ص".data l with
      | some nd =>
        if s2.2.2.2 then s2 else (trimWS nd.1, (natOfDigits nd.2 : Int), s2.2.2.1, true)
      | none => s2
    let s4 : List Char × Int × Int × Bool :=
      match firstMatch "ك".data l with
      | some nd =>
        if s3.2.2.2 then s3
        else ((if s3.1.isEmpty then trimWS nd.1 else s3.1), s3.2.1, (natOfDigits nd.2 : Int), true)
      | none => s3
    finishDelivery s4.1 s4.2.1 s4.2.2.1 s4.2.2.2

/-- `parseDeliveryReport` (self-contained serverless version). -/
def parseDeliveryReport (txt : List Char) : List Delivery :=
  (splitOnChar '\n' txt).filterMap parseDeliveryLine

/-! ## Compound-quantity tokenizer of `plan-comparison.js` -/

/-- JavaScript `\w` (ASCII word characters; Arabic letters are not `\w`). -/
def isWordCh (c : Char) : Bool :=
  ('a' ≤ c && c ≤ 'z') || ('A' ≤ c && c ≤ 'Z') || isDigitCh c || c = '_'

/-- Scan of `/(\d+)\s*M(?! ...)/g` with explicit fuel: at each maximal digit
run, match the run when it is followed by optional whitespace, the marker,
and a position where the lookahead `lk` holds; scanning resumes after the
marker.  Fuel `s.length` always suffices (every step drops a character). -/
def scanQF (mk : List Char) (lk : List Char → Bool) : Nat → List Char → List Nat
  | 0, _ => []
  | _ + 1, [] => []
  | f + 1, ch :: rest =>
    if isDigitCh ch then
      let run := (ch :: rest).takeWhile isDigitCh
      let after := (ch :: rest).dropWhile isDigitCh
      let am := after.dropWhile isWS
      if mk.isPrefixOf am ∧ lk (am.drop mk.length) then
        natOfDigits run :: scanQF mk lk f (am.drop mk.length)
      else scanQF mk lk f after
    else scanQF mk lk f rest

def scanQ (mk : List Char) (lk : List Char → Bool) (s : List Char) : List Nat :=
  scanQF mk lk s.length s

def sumL (l : List Nat) : Nat := l.foldl (· + ·) 0

/-- Lookahead `(?!\w)` used after the `ص` marker. -/
def lkNotWord (r : List Char) : Bool :=
  match r with
  | [] => true
  | c :: _ => !isWordCh c

/-- Lookahead `(?!وب)` used after the `ك` marker (so `كوب` is never counted as 5KG). -/
def lkNotCup (r : List Char) : Bool := !("وب".data.isPrefixOf r)

/-- Per-code quantity totals of the compound tokenizer. -/
structure QSet where
  small : Nat
  large : Nat
  v00 : Nat
  cup : Nat
deriving DecidableEq, Repr

/-- The compound-quantity branch of `parseDeliveryReport` in `plan-comparison.js`:
the four global scans (`كوب`, `فو`, `ص(?!\w)`, `ك(?!وب)`), each summing its
matches into its product code. -/
def tokenizeCompound (s : List Char) : QSet :=
  { cup := sumL (scanQ "كوب".data (fun _ => true) s)
    v00 := sumL (scanQ "فو".data (fun _ => true) s)
    small := sumL (scanQ "ص".data lkNotWord s)
    large := sumL (scanQ "ك".data lkNotCup s) }

/-! ## Summary metrics -/

/-- Exact-rational model of `Math.round(num / den)` (round half up). -/
def jsRound (num den : Nat) : Nat := (2 * num + den) / (2 * den)

/-- The serverless handler's fulfillment rate:
`delivered + missed > 0 ? Math.round(delivered / (delivered + missed) * 100) : 0`. -/
def fulfillmentRateHandler (d m : Nat) : Nat :=
  if 0 < d + m then jsRound (100 * d) (d + m) else 0

/-- The fulfillment rate of `generateComparisonReport` in `plan-comparison.js`,
whose guard tests `comparisonResults.length > 0` instead of the denominator;
`none` models the JavaScript `NaN` produced by `0 / 0`. -/
def fulfillmentRateGCR (results : List ResultRow) : Option Nat :=
  let d := (results.filter (fun r => decide (r.deliveryStatus = .Delivered))).length
  let m := (results.filter (fun r => decide (r.deliveryStatus = .Missed))).length
  if 0 < results.length then
    if 0 < d + m then some (jsRound (100 * d) (d + m)) else none
  else some 0

/-- The summary block of the serverless handler. -/
def summaryStats (planCount : Nat) (rows : List ResultRow) : Nat × Nat × Nat × Nat × Nat :=
  let d := (rows.filter (fun r => decide (r.deliveryStatus = .Delivered))).length
  let m := (rows.filter (fun r => decide (r.deliveryStatus = .Missed))).length
  let u := (rows.filter (fun r => decide (r.deliveryStatus = .Unplanned))).length
  (planCount, d, m, u, fulfillmentRateHandler d m)

/-- The parse-then-reconcile pipeline of the serverless handler. -/
def reconcilePipeline (planText deliveryText : List Char) (ms : List MasterClient) :
    List ResultRow :=
  compareDeliveries (parsePlanText planText) (parseDeliveryReport deliveryText) ms

/-! ## Characterization of the best-match selection -/

lemma maxList_cons (a : Nat) (l : List Nat) : maxList (a :: l) = Nat.max a (maxList l) := rfl

lemma max_drop_left {a b c : Nat} (h : a ≤ b) : Nat.max a (Nat.max b c) = Nat.max b c := by
  simp only [Nat.max_def]; split_ifs <;> omega

lemma max_absorb_mid {b s M : Nat} (h : s ≤ b) : Nat.max b (Nat.max s M) = Nat.max b M := by
  simp only [Nat.max_def]; split_ifs <;> omega

lemma le_max_l (s M : Nat) : s ≤ Nat.max s M := by
  simp only [Nat.max_def]; split_ifs <;> omega

/-- Full characterization of the `forEach` best-match fold: the final score is
the maximum of the accumulator and the unclaimed scores; a winner is unclaimed,
scores exactly the final score, and every unclaimed delivery strictly before it
scores strictly less. -/
lemma findBestAux_spec (p : Name) (c : List Nat) :
    ∀ (ds : List Delivery) (i b : Nat) (o : Option (Nat × Delivery)),
    (o = none → b = 0) →
    (∀ j d, o = some (j, d) → j < i ∧ j ∉ c ∧ nameScore p d.clientName = b ∧ 0 < b) →
    (findBestAux p c ds i (b, o)).1 = Nat.max b (maxList (unclScoresFrom p c ds i)) ∧
    ((findBestAux p c ds i (b, o)).2 = none → o = none ∧ (findBestAux p c ds i (b, o)).1 = b) ∧
    (∀ j d, (findBestAux p c ds i (b, o)).2 = some (j, d) →
      j ∉ c ∧ nameScore p d.clientName = (findBestAux p c ds i (b, o)).1 ∧
      0 < (findBestAux p c ds i (b, o)).1 ∧
      ((j < i ∧ o = some (j, d)) ∨ (i ≤ j ∧ ds[j - i]? = some d))) ∧
    (∀ j d, (findBestAux p c ds i (b, o)).2 = some (j, d) → i ≤ j →
      b < (findBestAux p c ds i (b, o)).1) ∧
    (∀ j d, (findBestAux p c ds i (b, o)).2 = some (j, d) →
      ∀ k dk, ds[k]? = some dk → (i + k) ∉ c → i + k < j →
        nameScore p dk.clientName < (findBestAux p c ds i (b, o)).1) := by
  intro ds
  induction ds with
  | nil =>
    intro i b o h0 hs
    simp only [findBestAux, unclScoresFrom, maxList, List.foldr_nil]
    refine ⟨by simp only [Nat.max_def]; split_ifs <;> omega, fun h => ⟨h, by trivial⟩, ?_, ?_, ?_⟩
    · intro j d hjd
      obtain ⟨h1, h2, h3, h4⟩ := hs j d hjd
      exact ⟨h2, h3, h4, Or.inl ⟨h1, hjd⟩⟩
    · intro j d hjd hij
      obtain ⟨h1, _, _, _⟩ := hs j d hjd
      omega
    · intro j d _ k dk hk
      simp at hk
  | cons d ds ih =>
    intro i b o h0 hs
    by_cases hc : i ∈ c
    · have hstep : findBestAux p c (d :: ds) i (b, o) = findBestAux p c ds (i + 1) (b, o) := by
        simp [findBestAux, hc]
      have hscore : unclScoresFrom p c (d :: ds) i = unclScoresFrom p c ds (i + 1) := by
        simp [unclScoresFrom, hc]
      obtain ⟨ih1, ih2, ih3, ih4, ih5⟩ :=
        ih (i + 1) b o h0 (fun j d' hj => by
          obtain ⟨a1, a2, a3, a4⟩ := hs j d' hj
          exact ⟨by omega, a2, a3, a4⟩)
      rw [hstep, hscore]
      refine ⟨ih1, ih2, ?_, ?_, ?_⟩
      · intro j d' hjd
        obtain ⟨a1, a2, a3, a4⟩ := ih3 j d' hjd
        refine ⟨a1, a2, a3, ?_⟩
        rcases a4 with ⟨hjlt, ho⟩ | ⟨hge, hget⟩
        · obtain ⟨b1, _, _, _⟩ := hs j d' ho
          exact Or.inl ⟨b1, ho⟩
        · refine Or.inr ⟨by omega, ?_⟩
          have hidx : j - i = (j - (i + 1)) + 1 := by omega
          rw [hidx]
          simpa using hget
      · intro j d' hjd hij
        obtain ⟨a1, _, _, _⟩ := ih3 j d' hjd
        have hij' : i + 1 ≤ j := by
          rcases Nat.eq_or_lt_of_le hij with h | h
          · exact absurd (h ▸ hc) a1
          · omega
        exact ih4 j d' hjd hij'
      · intro j d' hjd k dk hk hkc hkj
        match k, hk with
        | 0, hk => exact absurd (by simpa using hc) (by simpa using hkc)
        | k + 1, hk =>
          have hkc' : (i + 1) + k ∉ c := by
            have he : i + (k + 1) = (i + 1) + k := by omega
            rw [← he]; exact hkc
          exact ih5 j d' hjd k dk (by simpa using hk) hkc' (by omega)
    · set s := nameScore p d.clientName with hs_def
      by_cases hlt : b < s
      · have hstep : findBestAux p c (d :: ds) i (b, o) =
            findBestAux p c ds (i + 1) (s, some (i, d)) := by
          simp [findBestAux, hc, hlt]
        have hscore : unclScoresFrom p c (d :: ds) i =
            s :: unclScoresFrom p c ds (i + 1) := by
          simp [unclScoresFrom, hc]
        obtain ⟨ih1, ih2, ih3, ih4, ih5⟩ :=
          ih (i + 1) s (some (i, d)) (by intro h; exact absurd h (by simp))
            (fun j d' hj => by
              rw [Option.some.injEq, Prod.mk.injEq] at hj
              obtain ⟨rfl, rfl⟩ := hj
              exact ⟨by omega, hc, rfl, by omega⟩)
        rw [hstep, hscore, maxList_cons]
        have hmax : Nat.max b (Nat.max s (maxList (unclScoresFrom p c ds (i + 1)))) =
            Nat.max s (maxList (unclScoresFrom p c ds (i + 1))) :=
          max_drop_left (Nat.le_of_lt hlt)
        refine ⟨by rw [ih1, hmax], ?_, ?_, ?_, ?_⟩
        · intro h
          exact absurd (ih2 h).1 (by simp)
        · intro j d' hjd
          obtain ⟨a1, a2, a3, a4⟩ := ih3 j d' hjd
          refine ⟨a1, a2, a3, ?_⟩
          rcases a4 with ⟨hjlt, ho⟩ | ⟨hge, hget⟩
          · rw [Option.some.injEq, Prod.mk.injEq] at ho
            obtain ⟨rfl, rfl⟩ := ho
            exact Or.inr ⟨Nat.le_refl _, by simp⟩
          · refine Or.inr ⟨by omega, ?_⟩
            have hidx : j - i = (j - (i + 1)) + 1 := by omega
            rw [hidx]
            simpa using hget
        · intro j d' hjd hij
          have hres : s ≤ (findBestAux p c ds (i + 1) (s, some (i, d))).1 := by
            rw [ih1]; exact le_max_l _ _
          omega
        · intro j d' hjd k dk hk hkc hkj
          match k, hk with
          | 0, hk =>
            have hdk : dk = d := by simpa using hk.symm
            have hij' : i + 1 ≤ j := by omega
            have := ih4 j d' hjd hij'
            rw [hdk, ← hs_def]
            omega
          | k + 1, hk =>
            have hkc' : (i + 1) + k ∉ c := by
              have he : i + (k + 1) = (i + 1) + k := by omega
              rw [← he]; exact hkc
            exact ih5 j d' hjd k dk (by simpa using hk) hkc' (by omega)
      · have hstep : findBestAux p c (d :: ds) i (b, o) =
            findBestAux p c ds (i + 1) (b, o) := by
          simp only [findBestAux]
          rw [if_neg hc, if_neg (by simpa using hlt)]
        have hscore : unclScoresFrom p c (d :: ds) i =
            s :: unclScoresFrom p c ds (i + 1) := by
          simp [unclScoresFrom, hc]
        obtain ⟨ih1, ih2, ih3, ih4, ih5⟩ :=
          ih (i + 1) b o h0 (fun j d' hj => by
            obtain ⟨a1, a2, a3, a4⟩ := hs j d' hj
            exact ⟨by omega, a2, a3, a4⟩)
        rw [hstep, hscore, maxList_cons]
        have hmax : Nat.max b (Nat.max s (maxList (unclScoresFrom p c ds (i + 1)))) =
            Nat.max b (maxList (unclScoresFrom p c ds (i + 1))) :=
          max_absorb_mid (by omega)
        refine ⟨by rw [ih1, hmax], ih2, ?_, ?_, ?_⟩
        · intro j d' hjd
          obtain ⟨a1, a2, a3, a4⟩ := ih3 j d' hjd
          refine ⟨a1, a2, a3, ?_⟩
          rcases a4 with ⟨hjlt, ho⟩ | ⟨hge, hget⟩
          · obtain ⟨b1, _, _, _⟩ := hs j d' ho
            exact Or.inl ⟨b1, ho⟩
          · refine Or.inr ⟨by omega, ?_⟩
            have hidx : j - i = (j - (i + 1)) + 1 := by omega
            rw [hidx]
            simpa using hget
        · intro j d' hjd hij
          obtain ⟨a1, _, _, a4⟩ := ih3 j d' hjd
          have hij' : i + 1 ≤ j := by
            rcases a4 with ⟨hjlt, ho⟩ | ⟨hge, _⟩
            · obtain ⟨b1, _, _, _⟩ := hs j d' ho
              omega
            · omega
          exact ih4 j d' hjd hij'
        · intro j d' hjd k dk hk hkc hkj
          match k, hk with
          | 0, hk =>
            have hdk : dk = d := by simpa using hk.symm
            obtain ⟨a1, _, _, a4⟩ := ih3 j d' hjd
            have hij' : i + 1 ≤ j := by
              rcases a4 with ⟨hjlt, ho⟩ | ⟨hge, _⟩
              · obtain ⟨b1, _, _, _⟩ := hs j d' ho
                omega
              · omega
            have hb := ih4 j d' hjd hij'
            rw [hdk, ← hs_def]
            omega
          | k + 1, hk =>
            have hkc' : (i + 1) + k ∉ c := by
              have he : i + (k + 1) = (i + 1) + k := by omega
              rw [← he]; exact hkc
            exact ih5 j d' hjd k dk (by simpa using hk) hkc' (by omega)

/-- `findBest` computes the maximal unclaimed score, and its winner (when any)
is the first unclaimed delivery attaining it. -/
lemma findBest_spec (p : Name) (ds : List Delivery) (c : List Nat) :
    (findBest p ds c).1 = specMaxScore p ds c ∧
    ((findBest p ds c).2 = none → specMaxScore p ds c = 0) ∧
    (∀ j d, (findBest p ds c).2 = some (j, d) →
      j ∉ c ∧ ds[j]? = some d ∧ nameScore p d.clientName = specMaxScore p ds c ∧
      0 < specMaxScore p ds c ∧
      (∀ k dk, ds[k]? = some dk → k ∉ c → k < j →
        nameScore p dk.clientName < specMaxScore p ds c)) := by
  obtain ⟨h1, h2, h3, _, h5⟩ :=
    findBestAux_spec p c ds 0 0 none (fun _ => rfl) (fun j d h => by simp at h)
  simp only [findBest]
  have hfb : (findBestAux p c ds 0 (0, none)).1 = specMaxScore p ds c := by
    rw [h1, specMaxScore]
    simp only [Nat.max_def]; split_ifs <;> omega
  refine ⟨hfb, ?_, ?_⟩
  · intro h
    rw [← hfb]
    exact (h2 h).2
  · intro j d hjd
    obtain ⟨a1, a2, a3, a4⟩ := h3 j d hjd
    have hget : ds[j]? = some d := by
      rcases a4 with ⟨hjlt, _⟩ | ⟨_, hget⟩
      · omega
      · simpa using hget
    refine ⟨a1, hget, by rw [← hfb]; exact a2, by rw [← hfb]; exact a3, ?_⟩
    intro k dk hk hkc hkj
    rw [← hfb]
    exact h5 j d hjd k dk hk (by simpa using hkc) (by omega)

/-- Case analysis of one planned-client iteration: either the maximal unclaimed
score reaches the threshold and the first delivery attaining it is claimed with
a `Delivered` row, or the iteration emits a `Missed` row and claims nothing. -/
lemma processOne_cases (ms : List MasterClient) (ds : List Delivery) (c : List Nat)
    (p : PlanClient) :
    (∃ i d, ds[i]? = some d ∧ i ∉ c ∧
       processOne ms ds c p = (deliveredRowMk ms p d, c ++ [i]) ∧
       nameScore p.name d.clientName = specMaxScore p.name ds c ∧
       60 ≤ specMaxScore p.name ds c ∧
       (∀ k dk, ds[k]? = some dk → k ∉ c → k < i →
         nameScore p.name dk.clientName < specMaxScore p.name ds c)) ∨
    (processOne ms ds c p = (missedRowMk ms p, c) ∧ specMaxScore p.name ds c < 60) := by
  obtain ⟨h1, h2, h3⟩ := findBest_spec p.name ds c
  rcases ho : (findBest p.name ds c).2 with _ | ⟨j, d⟩
  · refine Or.inr ⟨?_, ?_⟩
    · simp only [processOne]
      rw [ho]
    · have := h2 ho
      omega
  · by_cases h60 : 60 ≤ (findBest p.name ds c).1
    · obtain ⟨a1, a2, a3, _, a5⟩ := h3 j d ho
      refine Or.inl ⟨j, d, a2, a1, ?_, a3, by omega, a5⟩
      simp only [processOne]
      rw [ho]
      dsimp only
      rw [if_pos h60]
    · refine Or.inr ⟨?_, by omega⟩
      simp only [processOne]
      rw [ho]
      dsimp only
      rw [if_neg h60]

lemma deliveredRowMk_clientName (ms : List MasterClient) (p : PlanClient) (d : Delivery) :
    (deliveredRowMk ms p d).clientName = p.name := rfl

lemma missedRowMk_clientName (ms : List MasterClient) (p : PlanClient) :
    (missedRowMk ms p).clientName = p.name := rfl

lemma deliveredRowMk_status (ms : List MasterClient) (p : PlanClient) (d : Delivery) :
    (deliveredRowMk ms p d).deliveryStatus = DeliveryStatus.Delivered := rfl

lemma missedRowMk_status (ms : List MasterClient) (p : PlanClient) :
    (missedRowMk ms p).deliveryStatus = DeliveryStatus.Missed := rfl

lemma unplannedRow_status (ms : List MasterClient) (d : Delivery) :
    (unplannedRow ms d).deliveryStatus = DeliveryStatus.Unplanned := rfl

lemma nodup_append_one {c : List Nat} {i : Nat} (h1 : c.Nodup) (h2 : i ∉ c) :
    (c ++ [i]).Nodup := by
  induction c with
  | nil => simp
  | cons a c ih =>
    rcases List.nodup_cons.1 h1 with ⟨ha, hc⟩
    refine List.nodup_cons.2 ⟨?_, ih hc (fun h => h2 (List.mem_cons_of_mem a h))⟩
    intro hmem
    rcases List.mem_append.1 hmem with h | h
    · exact ha h
    · simp only [List.mem_singleton] at h
      exact h2 (h ▸ List.mem_cons_self a c)

/-- The main induction over the planned clients: row count, row names, row
shapes, and the evolution of the claimed-index list. -/
lemma processAll_spec (ms : List MasterClient) (ds : List Delivery) :
    ∀ (plan : List PlanClient) (c : List Nat),
    c.Nodup → (∀ i ∈ c, i < ds.length) →
    (processAll ms ds plan c).1.length = plan.length ∧
    (processAll ms ds plan c).1.map (fun r => r.clientName) = plan.map (fun q => q.name) ∧
    (∀ r ∈ (processAll ms ds plan c).1,
       (∃ q d, r = deliveredRowMk ms q d) ∨ (∃ q, r = missedRowMk ms q)) ∧
    (processAll ms ds plan c).2.Nodup ∧
    (∀ i ∈ (processAll ms ds plan c).2, i < ds.length) ∧
    (processAll ms ds plan c).2.length =
      c.length + ((processAll ms ds plan c).1.filter
        (fun r => decide (r.deliveryStatus = DeliveryStatus.Delivered))).length := by
  intro plan
  induction plan with
  | nil =>
    intro c h1 h2
    refine ⟨rfl, rfl, by simp [processAll], h1, h2, by simp [processAll]⟩
  | cons p ps ih =>
    intro c h1 h2
    rcases processOne_cases ms ds c p with ⟨i, d, hget, hic, heq, _, _, _⟩ | ⟨heq, _⟩
    · have hilen : i < ds.length := by
        by_contra hlen
        rw [List.getElem?_eq_none (by omega)] at hget
        exact Option.noConfusion hget
      have hc' : (c ++ [i]).Nodup := nodup_append_one h1 hic
      have hb' : ∀ j ∈ c ++ [i], j < ds.length := by
        intro j hj
        rcases List.mem_append.1 hj with h | h
        · exact h2 j h
        · simp only [List.mem_singleton] at h
          omega
      obtain ⟨ih1, ih2, ih3, ih4, ih5, ih6⟩ := ih (c ++ [i]) hc' hb'
      simp only [processAll, heq]
      refine ⟨by simp [ih1], by simp [ih2, deliveredRowMk_clientName], ?_, ih4, ih5, ?_⟩
      · intro r hr
        rcases List.mem_cons.1 hr with h | h
        · exact Or.inl ⟨p, d, h⟩
        · exact ih3 r h
      · rw [ih6]
        have hD : (deliveredRowMk ms p d).deliveryStatus = DeliveryStatus.Delivered := rfl
        simp [List.filter_cons, hD, List.length_append]
        omega
    · obtain ⟨ih1, ih2, ih3, ih4, ih5, ih6⟩ := ih c h1 h2
      simp only [processAll, heq]
      refine ⟨by simp [ih1], by simp [ih2, missedRowMk_clientName], ?_, ih4, ih5, ?_⟩
      · intro r hr
        rcases List.mem_cons.1 hr with h | h
        · exact Or.inr ⟨p, h⟩
        · exact ih3 r h
      · rw [ih6]
        have hM : (missedRowMk ms p).deliveryStatus = DeliveryStatus.Missed := rfl
        simp [List.filter_cons, hM]

/-! ## Counting the unclaimed deliveries -/

/-- Number of delivery positions (from offset `i`) whose index is claimed. -/
def claimedCount (c : List Nat) : List Delivery → Nat → Nat
  | [], _ => 0
  | _ :: ds, i => (if i ∈ c then 1 else 0) + claimedCount c ds (i + 1)

lemma unplannedFrom_length (ms : List MasterClient) (c : List Nat) :
    ∀ (ds : List Delivery) (i : Nat),
    (unplannedFrom ms c ds i).length + claimedCount c ds i = ds.length := by
  intro ds
  induction ds with
  | nil => intro i; simp [unplannedFrom, claimedCount]
  | cons d ds ih =>
    intro i
    by_cases hc : i ∈ c
    · simp only [unplannedFrom, claimedCount, if_pos hc]
      have := ih (i + 1)
      simp only [List.length_cons]
      omega
    · simp only [unplannedFrom, claimedCount, if_neg hc]
      have := ih (i + 1)
      simp only [List.length_cons]
      omega

lemma claimedCount_countP (c : List Nat) :
    ∀ (ds : List Delivery) (i : Nat),
    claimedCount c ds i = List.countP (fun j => decide (j ∈ c)) (List.range' i ds.length) := by
  intro ds
  induction ds with
  | nil => intro i; simp [claimedCount]
  | cons d ds ih =>
    intro i
    have hr : List.range' i (d :: ds).length = i :: List.range' (i + 1) ds.length := by
      simp only [List.length_cons]
      exact List.range'_succ i ds.length 1
    rw [claimedCount, hr, List.countP_cons, ih (i + 1)]
    by_cases hc : i ∈ c
    · simp [hc]; omega
    · simp [hc]


lemma filter_mem_perm (c : List Nat) (n : Nat) (hnd : c.Nodup) (hb : ∀ j ∈ c, j < n) :
    ((List.range n).filter (fun j => decide (j ∈ c))).Perm c := by
  rw [List.perm_ext_iff_of_nodup (List.Nodup.filter _ (List.nodup_range n)) hnd]
  intro a
  simp only [List.mem_filter, List.mem_range, decide_eq_true_eq]
  constructor
  · rintro ⟨_, h⟩; exact h
  · intro h; exact ⟨hb a h, h⟩

lemma claimedCount_all (c : List Nat) (ds : List Delivery)
    (hnd : c.Nodup) (hb : ∀ j ∈ c, j < ds.length) :
    claimedCount c ds 0 = c.length := by
  rw [claimedCount_countP c ds 0, ← List.range_eq_range', List.countP_eq_length_filter]
  exact List.Perm.length_eq (filter_mem_perm c ds.length hnd hb)

lemma unplannedFrom_rows (ms : List MasterClient) (c : List Nat) :
    ∀ (ds : List Delivery) (i : Nat), ∀ r ∈ unplannedFrom ms c ds i,
    ∃ d, r = unplannedRow ms d := by
  intro ds
  induction ds with
  | nil => intro i r hr; simp [unplannedFrom] at hr
  | cons d ds ih =>
    intro i r hr
    by_cases hc : i ∈ c
    · rw [unplannedFrom, if_pos hc] at hr
      exact ih (i + 1) r hr
    · rw [unplannedFrom, if_neg hc] at hr
      rcases List.mem_cons.1 hr with h | h
      · exact ⟨d, h⟩
      · exact ih (i + 1) r h

lemma unplannedFrom_names_sublist (ms : List MasterClient) (c : List Nat) :
    ∀ (ds : List Delivery) (i : Nat),
    List.Sublist ((unplannedFrom ms c ds i).map (fun r => r.clientName))
      (ds.map (fun d => d.clientName)) := by
  intro ds
  induction ds with
  | nil => intro i; simp [unplannedFrom]
  | cons d ds ih =>
    intro i
    by_cases hc : i ∈ c
    · rw [unplannedFrom, if_pos hc]
      exact List.Sublist.cons _ (ih (i + 1))
    · rw [unplannedFrom, if_neg hc]
      simp only [List.map_cons]
      exact List.Sublist.cons₂ _ (ih (i + 1))

/-! ## Parser guard lemmas -/

lemma finishPlan_some {nm : List Char} {q3 q5 v cup : Int} {r : PlanClient}
    (h : finishPlan nm q3 q5 v cup = some r) :
    1 < r.name.length ∧ 0 < r.totalQuantity := by
  simp only [finishPlan] at h
  split at h
  · rw [Option.some.injEq] at h
    subst h
    next hcond => exact ⟨hcond.1, hcond.2⟩
  · exact absurd h (by simp)

lemma planLineRecord_some {l : List Char} {r : PlanClient}
    (h : planLineRecord l = some r) :
    1 < r.name.length ∧ 0 < r.totalQuantity := by
  simp only [planLineRecord] at h
  split at h
  · exact absurd h (by simp)
  · split at h
    · exact finishPlan_some h
    · exact absurd h (by simp)

lemma finishDelivery_some {nm : List Char} {q3 q5 : Int} {f : Bool} {r : Delivery}
    (h : finishDelivery nm q3 q5 f = some r) :
    1 < r.clientName.length ∧ 0 < r.totalDelivered := by
  simp only [finishDelivery] at h
  split at h
  · split at h
    · rw [Option.some.injEq] at h
      subst h
      next hcond => exact ⟨hcond.1, hcond.2⟩
    · exact absurd h (by simp)
  · exact absurd h (by simp)

lemma parseDeliveryLine_some {l : List Char} {r : Delivery}
    (h : parseDeliveryLine l = some r) :
    1 < r.clientName.length ∧ 0 < r.totalDelivered := by
  simp only [parseDeliveryLine] at h
  split at h
  · exact absurd h (by simp)
  · exact finishDelivery_some h

lemma splitOnChar_ne_nil (sep : Char) : ∀ s : List Char, splitOnChar sep s ≠ [] := by
  intro s
  induction s with
  | nil => simp [splitOnChar]
  | cons c r ih =>
    rcases hs : splitOnChar sep r with _ | ⟨h, t⟩
    · exact absurd hs ih
    · have hstep : splitOnChar sep (c :: r) =
          if c = sep then [] :: h :: t else (c :: h) :: t := by
        simp only [splitOnChar, hs]
      rw [hstep]
      split <;> simp

lemma splitOnChar_mem (sep : Char) :
    ∀ (s : List Char) (l : List Char), l ∈ splitOnChar sep s → ∀ ch ∈ l, ch ∈ s := by
  intro s
  induction s with
  | nil =>
    intro l hl ch hch
    simp [splitOnChar] at hl
    subst hl
    simp at hch
  | cons c r ih =>
    intro l hl ch hch
    rcases hs : splitOnChar sep r with _ | ⟨h, t⟩
    · exact absurd hs (splitOnChar_ne_nil sep r)
    · have hstep : splitOnChar sep (c :: r) =
          if c = sep then [] :: h :: t else (c :: h) :: t := by
        simp only [splitOnChar, hs]
      rw [hstep] at hl
      split at hl
      · rcases List.mem_cons.1 hl with h1 | h1
        · subst h1
          simp at hch
        · have hmem : l ∈ splitOnChar sep r := by rw [hs]; exact h1
          exact List.mem_cons_of_mem c (ih l hmem ch hch)
      · rcases List.mem_cons.1 hl with h1 | h1
        · subst h1
          rcases List.mem_cons.1 hch with h2 | h2
          · subst h2
            exact List.mem_cons_self _ _
          · have hmem : h ∈ splitOnChar sep r := by rw [hs]; exact List.mem_cons_self h t
            exact List.mem_cons_of_mem c (ih h hmem ch h2)
        · have hmem : l ∈ splitOnChar sep r := by rw [hs]; exact List.mem_cons_of_mem h h1
          exact List.mem_cons_of_mem c (ih l hmem ch hch)

lemma trimWS_all_ws {l : List Char} (h : ∀ ch ∈ l, isWS ch = true) : trimWS l = [] := by
  have h1 : l.dropWhile isWS = [] := List.dropWhile_eq_nil_iff.2 (fun a ha => h a ha)
  simp [trimWS, h1]

lemma blank_line_plan {l : List Char} (h : ∀ ch ∈ l, isWS ch = true) :
    planLineRecord l = none := by
  rw [planLineRecord, trimWS_all_ws h]
  simp

lemma blank_line_delivery {l : List Char} (h : ∀ ch ∈ l, isWS ch = true) :
    parseDeliveryLine l = none := by
  rw [parseDeliveryLine, trimWS_all_ws h]
  simp

/-! ## Scanner lemmas for the compound tokenizer -/

lemma scanQF_nil (mk : List Char) (lk : List Char → Bool) :
    ∀ f, scanQF mk lk f [] = [] := by
  intro f
  cases f <;> rfl

lemma scanQF_succ_cons (mk : List Char) (lk : List Char → Bool) (f : Nat) (ch : Char)
    (rest : List Char) :
    scanQF mk lk (f + 1) (ch :: rest) =
      if isDigitCh ch then
        (if mk.isPrefixOf (((ch :: rest).dropWhile isDigitCh).dropWhile isWS) ∧
            lk ((((ch :: rest).dropWhile isDigitCh).dropWhile isWS).drop mk.length) then
          natOfDigits ((ch :: rest).takeWhile isDigitCh) ::
            scanQF mk lk f ((((ch :: rest).dropWhile isDigitCh).dropWhile isWS).drop mk.length)
        else scanQF mk lk f ((ch :: rest).dropWhile isDigitCh))
      else scanQF mk lk f rest := rfl

lemma len_dropWhile_le (p : Char → Bool) (l : List Char) :
    (l.dropWhile p).length ≤ l.length := by
  induction l with
  | nil => simp
  | cons c t ih =>
    by_cases h : p c
    · rw [List.dropWhile_cons_of_pos h]
      simp only [List.length_cons]
      omega
    · rw [List.dropWhile_cons_of_neg h]

lemma scanQF_fuel (mk : List Char) (lk : List Char → Bool) :
    ∀ (f₁ f₂ : Nat) (s : List Char), s.length ≤ f₁ → s.length ≤ f₂ →
    scanQF mk lk f₁ s = scanQF mk lk f₂ s := by
  intro f₁
  induction f₁ with
  | zero =>
    intro f₂ s h1 _
    have hs : s = [] := List.eq_nil_of_length_eq_zero (by omega)
    subst hs
    rw [scanQF_nil, scanQF_nil]
  | succ f ih =>
    intro f₂ s h1 h2
    cases s with
    | nil => rw [scanQF_nil, scanQF_nil]
    | cons ch rest =>
      cases f₂ with
      | zero => simp at h2
      | succ g =>
        rw [scanQF_succ_cons, scanQF_succ_cons]
        have hlen : rest.length ≤ f ∧ rest.length ≤ g := by
          simp only [List.length_cons] at h1 h2
          omega
        by_cases hd : isDigitCh ch = true
        · rw [if_pos hd, if_pos hd]
          have hafter : ((ch :: rest).dropWhile isDigitCh).length ≤ rest.length := by
            rw [List.dropWhile_cons_of_pos hd]
            exact len_dropWhile_le _ _
          have hnxt :
              ((((ch :: rest).dropWhile isDigitCh).dropWhile isWS).drop mk.length).length ≤
                rest.length := by
            have h3 := len_dropWhile_le isWS ((ch :: rest).dropWhile isDigitCh)
            have h4 := List.length_drop mk.length
              (((ch :: rest).dropWhile isDigitCh).dropWhile isWS)
            omega
          by_cases hm : mk.isPrefixOf (((ch :: rest).dropWhile isDigitCh).dropWhile isWS) ∧
              lk ((((ch :: rest).dropWhile isDigitCh).dropWhile isWS).drop mk.length)
          · rw [if_pos hm, if_pos hm, ih g _ (by omega) (by omega)]
          · rw [if_neg hm, if_neg hm, ih g _ (by omega) (by omega)]
        · rw [if_neg hd, if_neg hd, ih g rest hlen.1 hlen.2]

lemma scanQ_cons_nondigit (mk : List Char) (lk : List Char → Bool) (ch : Char)
    (rest : List Char) (h : isDigitCh ch = false) :
    scanQ mk lk (ch :: rest) = scanQ mk lk rest := by
  rw [scanQ, List.length_cons, scanQF_succ_cons, if_neg (by simp [h])]
  rfl

lemma scanQ_skip_front (mk : List Char) (lk : List Char → Bool) :
    ∀ (p s : List Char), (∀ ch ∈ p, isDigitCh ch = false) →
    scanQ mk lk (p ++ s) = scanQ mk lk s := by
  intro p
  induction p with
  | nil => intro s _; rfl
  | cons c p' ih =>
    intro s h
    rw [List.cons_append, scanQ_cons_nondigit mk lk c (p' ++ s) (h c (List.mem_cons_self c p'))]
    exact ih s (fun ch hch => h ch (List.mem_cons_of_mem c hch))

lemma takeWhile_digits (d r : List Char)
    (hd : ∀ ch ∈ d, isDigitCh ch = true)
    (hr : ∀ ch, r.head? = some ch → isDigitCh ch = false) :
    (d ++ r).takeWhile isDigitCh = d ∧ (d ++ r).dropWhile isDigitCh = r := by
  induction d with
  | nil =>
    simp only [List.nil_append]
    cases r with
    | nil => simp
    | cons ch t =>
      have h := hr ch rfl
      rw [List.takeWhile_cons_of_neg (by simp [h]), List.dropWhile_cons_of_neg (by simp [h])]
      exact ⟨rfl, rfl⟩
  | cons c d' ih =>
    have hc : isDigitCh c = true := hd c (List.mem_cons_self c d')
    obtain ⟨h1, h2⟩ := ih (fun ch hch => hd ch (List.mem_cons_of_mem c hch))
    rw [List.cons_append, List.takeWhile_cons_of_pos hc, List.dropWhile_cons_of_pos hc]
    exact ⟨by rw [h1], h2⟩

lemma scanQ_run_pos (mk : List Char) (lk : List Char → Bool) (d r : List Char)
    (hne : d ≠ []) (hd : ∀ ch ∈ d, isDigitCh ch = true)
    (hr : ∀ ch, r.head? = some ch → isDigitCh ch = false)
    (hp : mk.isPrefixOf (r.dropWhile isWS) = true)
    (hl : lk ((r.dropWhile isWS).drop mk.length) = true) :
    scanQ mk lk (d ++ r) =
      natOfDigits d :: scanQ mk lk ((r.dropWhile isWS).drop mk.length) := by
  cases d with
  | nil => exact absurd rfl hne
  | cons c d' =>
    obtain ⟨htake, hdrop⟩ := takeWhile_digits (c :: d') r hd hr
    have hc : isDigitCh c = true := hd c (List.mem_cons_self c d')
    rw [List.cons_append] at htake hdrop ⊢
    rw [scanQ, List.length_cons, scanQF_succ_cons, if_pos hc, hdrop, htake,
      if_pos ⟨hp, hl⟩]
    congr 1
    have hb1 : ((r.dropWhile isWS).drop mk.length).length ≤ (d' ++ r).length := by
      have h3 := len_dropWhile_le isWS r
      have h4 := List.length_drop mk.length (r.dropWhile isWS)
      simp only [List.length_append]
      omega
    exact scanQF_fuel mk lk (d' ++ r).length _ _ hb1 (Nat.le_refl _)

lemma scanQ_run_neg (mk : List Char) (lk : List Char → Bool) (d r : List Char)
    (hne : d ≠ []) (hd : ∀ ch ∈ d, isDigitCh ch = true)
    (hr : ∀ ch, r.head? = some ch → isDigitCh ch = false)
    (hp : ¬ (mk.isPrefixOf (r.dropWhile isWS) = true ∧
      lk ((r.dropWhile isWS).drop mk.length) = true)) :
    scanQ mk lk (d ++ r) = scanQ mk lk r := by
  cases d with
  | nil => exact absurd rfl hne
  | cons c d' =>
    obtain ⟨htake, hdrop⟩ := takeWhile_digits (c :: d') r hd hr
    have hc : isDigitCh c = true := hd c (List.mem_cons_self c d')
    rw [List.cons_append] at htake hdrop ⊢
    rw [scanQ, List.length_cons, scanQF_succ_cons, if_pos hc, hdrop, if_neg hp]
    have hb1 : r.length ≤ (d' ++ r).length := by
      simp only [List.length_append]
      omega
    exact scanQF_fuel mk lk (d' ++ r).length _ _ hb1 (Nat.le_refl _)

lemma scanQ_run_pos' (mk : List Char) (lk : List Char → Bool) (d r : List Char)
    (hne : d ≠ []) (hd : ∀ ch ∈ d, isDigitCh ch = true)
    (hr : ∀ ch, r.head? = some ch → isDigitCh ch = false)
    (hws : r.dropWhile isWS = r)
    (hp : mk.isPrefixOf r = true) (hl : lk (r.drop mk.length) = true) :
    scanQ mk lk (d ++ r) = natOfDigits d :: scanQ mk lk (r.drop mk.length) := by
  have h := scanQ_run_pos mk lk d r hne hd hr (by rw [hws]; exact hp) (by rw [hws]; exact hl)
  rwa [hws] at h

lemma scanQ_run_neg' (mk : List Char) (lk : List Char → Bool) (d r : List Char)
    (hne : d ≠ []) (hd : ∀ ch ∈ d, isDigitCh ch = true)
    (hr : ∀ ch, r.head? = some ch → isDigitCh ch = false)
    (hws : r.dropWhile isWS = r)
    (hpn : ¬ (mk.isPrefixOf r = true ∧ lk (r.drop mk.length) = true)) :
    scanQ mk lk (d ++ r) = scanQ mk lk r := by
  exact scanQ_run_neg mk lk d r hne hd hr (by rw [hws]; exact hpn)

lemma head_not_digit_of (c : Char) (hc : isDigitCh c = false) :
    ∀ (rest : List Char) (ch : Char), (c :: rest).head? = some ch → isDigitCh ch = false := by
  intro rest ch h
  rw [List.head?_cons, Option.some.injEq] at h
  subst h
  exact hc

lemma isPrefixOf_cons_of_ne {a bb : Char} {as bs : List Char} (h : (a == bb) = false) :
    (a :: as).isPrefixOf (bb :: bs) = false := by
  simp [List.isPrefixOf, h]

lemma sumL_one (x : Nat) : sumL [x] = x := by simp [sumL]

lemma sumL_two (x y : Nat) : sumL [x, y] = x + y := by simp [sumL]

/-- The compound tokenizer on a fragment `<a>كوب + <b>ك`: the quantity before
the cup marker goes to CUP, the one before the bare `ك` to LARGE. -/
lemma tokenize_cup_large (a b : List Char) (ha : a ≠ []) (hb : b ≠ [])
    (hda : ∀ ch ∈ a, isDigitCh ch = true) (hdb : ∀ ch ∈ b, isDigitCh ch = true) :
    tokenizeCompound (a ++ ('ك' :: 'و' :: 'ب' :: ' ' :: '+' :: ' ' :: (b ++ ['ك']))) =
      ⟨0, natOfDigits b, 0, natOfDigits a⟩ := by
  have hkWS : isWS 'ك' = false := by decide
  have hwsR : ('ك' :: 'و' :: 'ب' :: ' ' :: '+' :: ' ' :: (b ++ ['ك'])).dropWhile isWS =
      'ك' :: 'و' :: 'ب' :: ' ' :: '+' :: ' ' :: (b ++ ['ك']) :=
    List.dropWhile_cons_of_neg (by simp [hkWS])
  have hrR := head_not_digit_of 'ك' (by decide)
    ('و' :: 'ب' :: ' ' :: '+' :: ' ' :: (b ++ ['ك']))
  have hrK := head_not_digit_of 'ك' (by decide) ([] : List Char)
  simp only [tokenizeCompound]
  congr 1
  -- small: no ص marker anywhere
  · have e1 : scanQ "ص".data lkNotWord (a ++ ('ك' :: 'و' :: 'ب' :: ' ' :: '+' :: ' ' :: (b ++ ['ك']))) =
        scanQ "ص".data lkNotWord ('ك' :: 'و' :: 'ب' :: ' ' :: '+' :: ' ' :: (b ++ ['ك'])) := by
      refine scanQ_run_neg' _ _ a _ ha hda hrR hwsR ?_
      rintro ⟨h1, _⟩
      rw [show ("ص".data : List Char) = ['ص'] from rfl,
        isPrefixOf_cons_of_ne (by decide)] at h1
      exact absurd h1 (by simp)
    have e2 : scanQ "ص".data lkNotWord ('ك' :: 'و' :: 'ب' :: ' ' :: '+' :: ' ' :: (b ++ ['ك'])) =
        scanQ "ص".data lkNotWord (b ++ ['ك']) := by
      have h := scanQ_skip_front "ص".data lkNotWord ['ك', 'و', 'ب', ' ', '+', ' ']
        (b ++ ['ك']) (by decide)
      simpa using h
    have e3 : scanQ "ص".data lkNotWord (b ++ ['ك']) = scanQ "ص".data lkNotWord ['ك'] := by
      refine scanQ_run_neg' _ _ b _ hb hdb hrK (by decide) (by decide)
    have e4 : scanQ "ص".data lkNotWord ['ك'] = [] := by decide
    rw [e1, e2, e3, e4]
    rfl
  · -- large: the leading quantity is rejected by the (?!وب) lookahead
    have e1 : scanQ "ك".data lkNotCup (a ++ ('ك' :: 'و' :: 'ب' :: ' ' :: '+' :: ' ' :: (b ++ ['ك']))) =
        scanQ "ك".data lkNotCup ('ك' :: 'و' :: 'ب' :: ' ' :: '+' :: ' ' :: (b ++ ['ك'])) := by
      refine scanQ_run_neg' _ _ a _ ha hda hrR hwsR ?_
      rintro ⟨_, h2⟩
      rw [show ("ك".data : List Char) = ['ك'] from rfl] at h2
      simp only [List.length_cons, List.length_nil, List.drop_succ_cons, List.drop_zero] at h2
      rw [show lkNotCup ('و' :: 'ب' :: ' ' :: '+' :: ' ' :: (b ++ ['ك'])) = false from by
        simp [lkNotCup, List.isPrefixOf]] at h2
      exact absurd h2 (by simp)
    have e2 : scanQ "ك".data lkNotCup ('ك' :: 'و' :: 'ب' :: ' ' :: '+' :: ' ' :: (b ++ ['ك'])) =
        scanQ "ك".data lkNotCup (b ++ ['ك']) := by
      have h := scanQ_skip_front "ك".data lkNotCup ['ك', 'و', 'ب', ' ', '+', ' ']
        (b ++ ['ك']) (by decide)
      simpa using h
    have e3 : scanQ "ك".data lkNotCup (b ++ ['ك']) =
        natOfDigits b :: scanQ "ك".data lkNotCup [] := by
      have h := scanQ_run_pos' "ك".data lkNotCup b ['ك'] hb hdb hrK (by decide)
        (by decide) (by decide)
      simpa using h
    have e4 : scanQ "ك".data lkNotCup ([] : List Char) = [] := rfl
    rw [e1, e2, e3, e4, sumL_one]
  · -- v00: no فو marker anywhere
    have e1 : scanQ "فو".data (fun _ => true) (a ++ ('ك' :: 'و' :: 'ب' :: ' ' :: '+' :: ' ' :: (b ++ ['ك']))) =
        scanQ "فو".data (fun _ => true) ('ك' :: 'و' :: 'ب' :: ' ' :: '+' :: ' ' :: (b ++ ['ك'])) := by
      refine scanQ_run_neg' _ _ a _ ha hda hrR hwsR ?_
      rintro ⟨h1, _⟩
      rw [show ("فو".data : List Char) = ['ف', 'و'] from rfl,
        isPrefixOf_cons_of_ne (by decide)] at h1
      exact absurd h1 (by simp)
    have e2 : scanQ "فو".data (fun _ => true) ('ك' :: 'و' :: 'ب' :: ' ' :: '+' :: ' ' :: (b ++ ['ك'])) =
        scanQ "فو".data (fun _ => true) (b ++ ['ك']) := by
      have h := scanQ_skip_front "فو".data (fun _ => true) ['ك', 'و', 'ب', ' ', '+', ' ']
        (b ++ ['ك']) (by decide)
      simpa using h
    have e3 : scanQ "فو".data (fun _ => true) (b ++ ['ك']) =
        scanQ "فو".data (fun _ => true) ['ك'] := by
      refine scanQ_run_neg' _ _ b _ hb hdb hrK (by decide) (by decide)
    have e4 : scanQ "فو".data (fun _ => true) ['ك'] = [] := by decide
    rw [e1, e2, e3, e4]
    rfl
  · -- cup: the leading quantity matches the كوب marker
    have e1 : scanQ "كوب".data (fun _ => true) (a ++ ('ك' :: 'و' :: 'ب' :: ' ' :: '+' :: ' ' :: (b ++ ['ك']))) =
        natOfDigits a ::
          scanQ "كوب".data (fun _ => true) (' ' :: '+' :: ' ' :: (b ++ ['ك'])) := by
      have h := scanQ_run_pos' "كوب".data (fun _ => true) a
        ('ك' :: 'و' :: 'ب' :: ' ' :: '+' :: ' ' :: (b ++ ['ك'])) ha hda hrR hwsR
        (by rw [show ("كوب".data : List Char) = ['ك', 'و', 'ب'] from rfl]
            simp [List.isPrefixOf]) rfl
      simpa using h
    have e2 : scanQ "كوب".data (fun _ => true) (' ' :: '+' :: ' ' :: (b ++ ['ك'])) =
        scanQ "كوب".data (fun _ => true) (b ++ ['ك']) := by
      have h := scanQ_skip_front "كوب".data (fun _ => true) [' ', '+', ' ']
        (b ++ ['ك']) (by decide)
      simpa using h
    have e3 : scanQ "كوب".data (fun _ => true) (b ++ ['ك']) =
        scanQ "كوب".data (fun _ => true) ['ك'] := by
      refine scanQ_run_neg' _ _ b _ hb hdb hrK (by decide) (by decide)
    have e4 : scanQ "كوب".data (fun _ => true) ['ك'] = [] := by decide
    rw [e1, e2, e3, e4, sumL_one]

/-- The compound tokenizer on a fragment `<a>كوب <b>كوب`: repeated occurrences
of the cup marker are summed into CUP, and none leaks into LARGE. -/
lemma tokenize_cup_sum (a b : List Char) (ha : a ≠ []) (hb : b ≠ [])
    (hda : ∀ ch ∈ a, isDigitCh ch = true) (hdb : ∀ ch ∈ b, isDigitCh ch = true) :
    tokenizeCompound (a ++ ('ك' :: 'و' :: 'ب' :: ' ' :: (b ++ ['ك', 'و', 'ب']))) =
      ⟨0, 0, 0, natOfDigits a + natOfDigits b⟩ := by
  have hwsR : ('ك' :: 'و' :: 'ب' :: ' ' :: (b ++ ['ك', 'و', 'ب'])).dropWhile isWS =
      'ك' :: 'و' :: 'ب' :: ' ' :: (b ++ ['ك', 'و', 'ب']) :=
    List.dropWhile_cons_of_neg (by decide)
  have hrR := head_not_digit_of 'ك' (by decide) ('و' :: 'ب' :: ' ' :: (b ++ ['ك', 'و', 'ب']))
  have hrK := head_not_digit_of 'ك' (by decide) (['و', 'ب'] : List Char)
  simp only [tokenizeCompound]
  congr 1
  · -- small
    have e1 : scanQ "ص".data lkNotWord (a ++ ('ك' :: 'و' :: 'ب' :: ' ' :: (b ++ ['ك', 'و', 'ب']))) =
        scanQ "ص".data lkNotWord ('ك' :: 'و' :: 'ب' :: ' ' :: (b ++ ['ك', 'و', 'ب'])) := by
      refine scanQ_run_neg' _ _ a _ ha hda hrR hwsR ?_
      rintro ⟨h1, _⟩
      rw [show ("ص".data : List Char) = ['ص'] from rfl,
        isPrefixOf_cons_of_ne (by decide)] at h1
      exact absurd h1 (by simp)
    have e2 : scanQ "ص".data lkNotWord ('ك' :: 'و' :: 'ب' :: ' ' :: (b ++ ['ك', 'و', 'ب'])) =
        scanQ "ص".data lkNotWord (b ++ ['ك', 'و', 'ب']) := by
      have h := scanQ_skip_front "ص".data lkNotWord ['ك', 'و', 'ب', ' ']
        (b ++ ['ك', 'و', 'ب']) (by decide)
      simpa using h
    have e3 : scanQ "ص".data lkNotWord (b ++ ['ك', 'و', 'ب']) =
        scanQ "ص".data lkNotWord ['ك', 'و', 'ب'] := by
      refine scanQ_run_neg' _ _ b _ hb hdb hrK (by decide) (by decide)
    have e4 : scanQ "ص".data lkNotWord ['ك', 'و', 'ب'] = [] := by decide
    rw [e1, e2, e3, e4]
    rfl
  · -- large: both كوب occurrences are rejected by the lookahead
    have e1 : scanQ "ك".data lkNotCup (a ++ ('ك' :: 'و' :: 'ب' :: ' ' :: (b ++ ['ك', 'و', 'ب']))) =
        scanQ "ك".data lkNotCup ('ك' :: 'و' :: 'ب' :: ' ' :: (b ++ ['ك', 'و', 'ب'])) := by
      refine scanQ_run_neg' _ _ a _ ha hda hrR hwsR ?_
      rintro ⟨_, h2⟩
      rw [show ("ك".data : List Char) = ['ك'] from rfl] at h2
      simp only [List.length_cons, List.length_nil, List.drop_succ_cons, List.drop_zero] at h2
      rw [show lkNotCup ('و' :: 'ب' :: ' ' :: (b ++ ['ك', 'و', 'ب'])) = false from by
        simp [lkNotCup, List.isPrefixOf]] at h2
      exact absurd h2 (by simp)
    have e2 : scanQ "ك".data lkNotCup ('ك' :: 'و' :: 'ب' :: ' ' :: (b ++ ['ك', 'و', 'ب'])) =
        scanQ "ك".data lkNotCup (b ++ ['ك', 'و', 'ب']) := by
      have h := scanQ_skip_front "ك".data lkNotCup ['ك', 'و', 'ب', ' ']
        (b ++ ['ك', 'و', 'ب']) (by decide)
      simpa using h
    have e3 : scanQ "ك".data lkNotCup (b ++ ['ك', 'و', 'ب']) =
        scanQ "ك".data lkNotCup ['ك', 'و', 'ب'] := by
      refine scanQ_run_neg' _ _ b _ hb hdb hrK (by decide) (by decide)
    have e4 : scanQ "ك".data lkNotCup ['ك', 'و', 'ب'] = [] := by decide
    rw [e1, e2, e3, e4]
    rfl
  · -- v00
    have e1 : scanQ "فو".data (fun _ => true) (a ++ ('ك' :: 'و' :: 'ب' :: ' ' :: (b ++ ['ك', 'و', 'ب']))) =
        scanQ "فو".data (fun _ => true) ('ك' :: 'و' :: 'ب' :: ' ' :: (b ++ ['ك', 'و', 'ب'])) := by
      refine scanQ_run_neg' _ _ a _ ha hda hrR hwsR ?_
      rintro ⟨h1, _⟩
      rw [show ("فو".data : List Char) = ['ف', 'و'] from rfl,
        isPrefixOf_cons_of_ne (by decide)] at h1
      exact absurd h1 (by simp)
    have e2 : scanQ "فو".data (fun _ => true) ('ك' :: 'و' :: 'ب' :: ' ' :: (b ++ ['ك', 'و', 'ب'])) =
        scanQ "فو".data (fun _ => true) (b ++ ['ك', 'و', 'ب']) := by
      have h := scanQ_skip_front "فو".data (fun _ => true) ['ك', 'و', 'ب', ' ']
        (b ++ ['ك', 'و', 'ب']) (by decide)
      simpa using h
    have e3 : scanQ "فو".data (fun _ => true) (b ++ ['ك', 'و', 'ب']) =
        scanQ "فو".data (fun _ => true) ['ك', 'و', 'ب'] := by
      refine scanQ_run_neg' _ _ b _ hb hdb hrK (by decide) (by decide)
    have e4 : scanQ "فو".data (fun _ => true) ['ك', 'و', 'ب'] = [] := by decide
    rw [e1, e2, e3, e4]
    rfl
  · -- cup: both occurrences summed
    have e1 : scanQ "كوب".data (fun _ => true) (a ++ ('ك' :: 'و' :: 'ب' :: ' ' :: (b ++ ['ك', 'و', 'ب']))) =
        natOfDigits a :: scanQ "كوب".data (fun _ => true) (' ' :: (b ++ ['ك', 'و', 'ب'])) := by
      have h := scanQ_run_pos' "كوب".data (fun _ => true) a
        ('ك' :: 'و' :: 'ب' :: ' ' :: (b ++ ['ك', 'و', 'ب'])) ha hda hrR hwsR
        (by rw [show ("كوب".data : List Char) = ['ك', 'و', 'ب'] from rfl]
            simp [List.isPrefixOf]) rfl
      simpa using h
    have e2 : scanQ "كوب".data (fun _ => true) (' ' :: (b ++ ['ك', 'و', 'ب'])) =
        scanQ "كوب".data (fun _ => true) (b ++ ['ك', 'و', 'ب']) := by
      have h := scanQ_skip_front "كوب".data (fun _ => true) [' ']
        (b ++ ['ك', 'و', 'ب']) (by decide)
      simpa using h
    have e3 : scanQ "كوب".data (fun _ => true) (b ++ ['ك', 'و', 'ب']) =
        natOfDigits b :: scanQ "كوب".data (fun _ => true) [] := by
      have h := scanQ_run_pos' "كوب".data (fun _ => true) b ['ك', 'و', 'ب'] hb hdb hrK
        (by decide) (by decide) (by decide)
      simpa using h
    have e4 : scanQ "كوب".data (fun _ => true) ([] : List Char) = [] := rfl
    rw [e1, e2, e3, e4, sumL_two]

/-! ## Claim theorems -/

/-- C3: the name matcher normalizes both names by lower-casing and removing
whitespace, then scores 100 on equality, 80 when one normalized name contains
the other as a substring, 60 when the first 3 normalized characters agree, and
0 otherwise; "Beta Cafe" vs "betacafe" scores 100 and that pair is matched as
a Delivered row by the engine. -/
theorem C3_name_matcher :
    (∀ p d : Name,
      (nameScore p d = 100 ↔ normName p = normName d) ∧
      (nameScore p d = 80 ↔ normName p ≠ normName d ∧
        (isSubstrOf (normName d) (normName p) || isSubstrOf (normName p) (normName d)) = true) ∧
      (nameScore p d = 60 ↔ normName p ≠ normName d ∧
        (isSubstrOf (normName d) (normName p) || isSubstrOf (normName p) (normName d)) = false ∧
        (normName p).take 3 = (normName d).take 3) ∧
      (nameScore p d = 0 ↔ normName p ≠ normName d ∧
        (isSubstrOf (normName d) (normName p) || isSubstrOf (normName p) (normName d)) = false ∧
        (normName p).take 3 ≠ (normName d).take 3)) ∧
    nameScore "Beta Cafe".data "betacafe".data = 100 ∧
    (compareDeliveries [⟨"Beta Cafe".data, ⟨1, 0, 0, 0⟩, 1⟩]
        [⟨"betacafe".data, 1, 0, 0, 0, 1⟩] []).map (fun r => r.deliveryStatus) =
      [DeliveryStatus.Delivered] := by
  refine ⟨?_, by decide, by decide⟩
  intro p d
  simp only [nameScore]
  by_cases h1 : normName p = normName d
  · rw [if_pos h1]
    refine ⟨⟨fun _ => h1, fun _ => rfl⟩, ?_, ?_, ?_⟩ <;>
      exact iff_of_false (by omega) (by rintro ⟨hne, _⟩; exact hne h1)
  · rw [if_neg h1]
    by_cases h2 : (isSubstrOf (normName d) (normName p) ||
        isSubstrOf (normName p) (normName d)) = true
    · rw [if_pos h2]
      refine ⟨iff_of_false (by omega) (fun h => h1 h), iff_of_true rfl ⟨h1, h2⟩, ?_, ?_⟩ <;>
        exact iff_of_false (by omega)
          (by rintro ⟨_, hf, _⟩; rw [h2] at hf; exact Bool.noConfusion hf)
    · have h2' : (isSubstrOf (normName d) (normName p) ||
          isSubstrOf (normName p) (normName d)) = false := by
        cases hx : (isSubstrOf (normName d) (normName p) ||
            isSubstrOf (normName p) (normName d)) with
        | true => exact absurd hx h2
        | false => rfl
      rw [if_neg h2]
      by_cases h3 : (normName p).take 3 = (normName d).take 3
      · rw [if_pos h3]
        refine ⟨iff_of_false (by omega) (fun h => h1 h),
          iff_of_false (by omega)
            (by rintro ⟨_, hf⟩; rw [h2'] at hf; exact Bool.noConfusion hf),
          iff_of_true rfl ⟨h1, h2', h3⟩,
          iff_of_false (by omega) (by rintro ⟨_, _, hne⟩; exact hne h3)⟩
      · rw [if_neg h3]
        refine ⟨iff_of_false (by omega) (fun h => h1 h),
          iff_of_false (by omega)
            (by rintro ⟨_, hf⟩; rw [h2'] at hf; exact Bool.noConfusion hf),
          iff_of_false (by omega) (by rintro ⟨_, _, he⟩; exact h3 he),
          iff_of_true rfl ⟨h1, h2', h3⟩⟩

theorem C3_name_matcher_witness :
    nameScore "acme".data "acme foods".data = 80 := by
  have h := (C3_name_matcher.1 "acme".data "acme foods".data).2.1
  exact h.mpr (by decide)

/-- C4: the compound-quantity tokenizer assigns each digit-run-plus-marker
occurrence to its marker's product code, checks the cup marker `كوب` ahead of
the bare `ك` large marker (whose glyph is a prefix of it) via the negative
lookahead, and sums repeated occurrences of the same code: `<a>كوب + <b>ك`
tokenizes to CUP = a and LARGE = b, and `<a>كوب <b>كوب` to CUP = a + b. -/
theorem C4_marker_ordering (a b : List Char) (ha : a ≠ []) (hb : b ≠ [])
    (hda : ∀ ch ∈ a, isDigitCh ch = true) (hdb : ∀ ch ∈ b, isDigitCh ch = true) :
    tokenizeCompound (a ++ "كوب + ".data ++ b ++ "ك".data) =
      ⟨0, natOfDigits b, 0, natOfDigits a⟩ ∧
    tokenizeCompound (a ++ "كوب ".data ++ b ++ "كوب".data) =
      ⟨0, 0, 0, natOfDigits a + natOfDigits b⟩ := by
  constructor
  · have hsh : a ++ "كوب + ".data ++ b ++ "ك".data =
        a ++ ('ك' :: 'و' :: 'ب' :: ' ' :: '+' :: ' ' :: (b ++ ['ك'])) := by
      rw [List.append_assoc, List.append_assoc]
      rfl
    rw [hsh]
    exact tokenize_cup_large a b ha hb hda hdb
  · have hsh : a ++ "كوب ".data ++ b ++ "كوب".data =
        a ++ ('ك' :: 'و' :: 'ب' :: ' ' :: (b ++ ['ك', 'و', 'ب'])) := by
      rw [List.append_assoc, List.append_assoc]
      rfl
    rw [hsh]
    exact tokenize_cup_sum a b ha hb hda hdb

theorem C4_marker_ordering_witness :
    tokenizeCompound "3كوب + 2ك".data = ⟨0, 2, 0, 3⟩ ∧
    tokenizeCompound "3كوب 2كوب".data = ⟨0, 0, 0, 5⟩ := by
  have h := C4_marker_ordering ['3'] ['2'] (by decide) (by decide) (by decide) (by decide)
  constructor
  · have e : ("3كوب + 2ك".data : List Char) =
        ['3'] ++ "كوب + ".data ++ ['2'] ++ "ك".data := by decide
    rw [e, h.1]
    decide
  · have e : ("3كوب 2كوب".data : List Char) =
        ['3'] ++ "كوب ".data ++ ['2'] ++ "كوب".data := by decide
    rw [e, h.2]
    decide

/-- C5: the serverless handler's fulfillment rate is bounded by 100 and is 0
when the delivered and missed counts are both 0, but the duplicated
`generateComparisonReport` implementation guards the division with
`comparisonResults.length > 0` instead, so a result list holding only an
Unplanned row makes it compute `0 / 0`, i.e. NaN (modelled as `none`) instead
of the 0 demanded by the claim. -/
theorem C5_fulfillment_rate :
    (∀ d m : Nat, fulfillmentRateHandler d m ≤ 100) ∧
    fulfillmentRateHandler 0 0 = 0 ∧
    fulfillmentRateHandler 1 2 = 33 ∧
    fulfillmentRateGCR [] = some 0 ∧
    fulfillmentRateGCR [unplannedRow [] ⟨"غائب".data, 2, 0, 0, 0, 2⟩] = none := by
  refine ⟨?_, by decide, by decide, by decide, by decide⟩
  intro d m
  rw [fulfillmentRateHandler]
  split_ifs with h
  · rw [jsRound]
    have h2 : 0 < 2 * (d + m) := by omega
    have hlt : (2 * (100 * d) + (d + m)) / (2 * (d + m)) < 101 := by
      rw [Nat.div_lt_iff_lt_mul h2]
      omega
    omega
  · omega

/-- C9: the reconciliation over parsed plan text, parsed delivery text and a
directory is a pure deterministic function: the embedding is state-free, so
identical inputs (including identical directory order) give identical rows
and identical summary metrics. -/
theorem C9_deterministic :
    ∀ (pt₁ pt₂ dt₁ dt₂ : List Char) (ms₁ ms₂ : List MasterClient),
    pt₁ = pt₂ → dt₁ = dt₂ → ms₁ = ms₂ →
    reconcilePipeline pt₁ dt₁ ms₁ = reconcilePipeline pt₂ dt₂ ms₂ ∧
    summaryStats (parsePlanText pt₁).length (reconcilePipeline pt₁ dt₁ ms₁) =
      summaryStats (parsePlanText pt₂).length (reconcilePipeline pt₂ dt₂ ms₂) := by
  intro pt₁ pt₂ dt₁ dt₂ ms₁ ms₂ h1 h2 h3
  subst h1
  subst h2
  subst h3
  exact ⟨rfl, rfl⟩

theorem C9_deterministic_witness :
    reconcilePipeline "Acme\t10\t5\t0\t0".data "x".data [] =
      reconcilePipeline "Acme\t10\t5\t0\t0".data "x".data [] :=
  (C9_deterministic "Acme\t10\t5\t0\t0".data "Acme\t10\t5\t0\t0".data
    "x".data "x".data [] [] rfl rfl rfl).1

/-- C1: the engine classifies each planned record by the maximum score over
the not-yet-claimed deliveries: a `Delivered` row exactly when that maximum
reaches 60, claiming the scoring delivery and giving variance
delivered − planned; otherwise a `Missed` row with variance −planned; rows for
unclaimed deliveries are `Unplanned` with variance = delivered. -/
theorem C1_engine_classification :
    ∀ (ms : List MasterClient) (ds : List Delivery) (plan : List PlanClient)
      (c : List Nat) (p : PlanClient),
    ((processOne ms ds c p).1.deliveryStatus = DeliveryStatus.Delivered ↔
      60 ≤ specMaxScore p.name ds c) ∧
    ((processOne ms ds c p).1.deliveryStatus = DeliveryStatus.Delivered ∨
      (processOne ms ds c p).1.deliveryStatus = DeliveryStatus.Missed) ∧
    (∀ i, (processOne ms ds c p).2 = c ++ [i] →
      ∃ d, ds[i]? = some d ∧ i ∉ c ∧
        nameScore p.name d.clientName = specMaxScore p.name ds c ∧
        (processOne ms ds c p).1.delivered = deliveredQ d ∧
        (processOne ms ds c p).1.planned = p.products ∧
        (processOne ms ds c p).1.variance = qSub (deliveredQ d) p.products) ∧
    ((processOne ms ds c p).1.deliveryStatus = DeliveryStatus.Missed →
      (processOne ms ds c p).2 = c ∧
      (processOne ms ds c p).1.variance = qNeg p.products ∧
      (processOne ms ds c p).1.delivered = qZero) ∧
    (∀ r ∈ compareDeliveries plan ds ms,
      (r.deliveryStatus = DeliveryStatus.Delivered → r.variance = qSub r.delivered r.planned) ∧
      (r.deliveryStatus = DeliveryStatus.Missed →
        r.variance = qNeg r.planned ∧ r.delivered = qZero) ∧
      (r.deliveryStatus = DeliveryStatus.Unplanned →
        r.variance = r.delivered ∧ r.planned = qZero)) := by
  intro ms ds plan c p
  have hrows : ∀ r ∈ compareDeliveries plan ds ms,
      (r.deliveryStatus = DeliveryStatus.Delivered → r.variance = qSub r.delivered r.planned) ∧
      (r.deliveryStatus = DeliveryStatus.Missed →
        r.variance = qNeg r.planned ∧ r.delivered = qZero) ∧
      (r.deliveryStatus = DeliveryStatus.Unplanned →
        r.variance = r.delivered ∧ r.planned = qZero) := by
    intro r hr
    obtain ⟨_, _, h3, _, _, _⟩ := processAll_spec ms ds plan [] List.nodup_nil (by simp)
    rcases List.mem_append.1 hr with h | h
    · rcases h3 r h with ⟨q, d, rfl⟩ | ⟨q, rfl⟩
      · exact ⟨fun _ => rfl,
          fun hx => absurd hx (by simp [deliveredRowMk_status]),
          fun hx => absurd hx (by simp [deliveredRowMk_status])⟩
      · exact ⟨fun hx => absurd hx (by simp [missedRowMk_status]),
          fun _ => ⟨rfl, rfl⟩,
          fun hx => absurd hx (by simp [missedRowMk_status])⟩
    · obtain ⟨d, rfl⟩ := unplannedFrom_rows ms _ ds 0 r h
      exact ⟨fun hx => absurd hx (by simp [unplannedRow_status]),
        fun hx => absurd hx (by simp [unplannedRow_status]),
        fun _ => ⟨rfl, rfl⟩⟩
  rcases processOne_cases ms ds c p with
    ⟨i, d, hget, hic, heq, hsc, h60, _⟩ | ⟨heq, h60⟩
  · refine ⟨⟨fun _ => h60, fun _ => by rw [heq]; try rfl⟩, Or.inl (by rw [heq]; try rfl), ?_, ?_, hrows⟩
    · intro i' hi'
      rw [heq] at hi'
      have hii : i = i' := by
        have h2 : [i] = [i'] := List.append_cancel_left hi'
        simpa using h2
      subst hii
      exact ⟨d, hget, hic, hsc, by rw [heq]; try rfl, by rw [heq]; try rfl, by rw [heq]; try rfl⟩
    · intro hM
      rw [heq] at hM
      exact absurd hM (by simp [deliveredRowMk_status])
  · refine ⟨⟨?_, fun h => by omega⟩, Or.inr (by rw [heq]; try rfl), ?_, ?_, hrows⟩
    · intro h
      rw [heq] at h
      exact absurd h (by simp [missedRowMk_status])
    · intro i hi
      rw [heq] at hi
      have := congrArg List.length hi
      simp at this
    · intro _
      exact ⟨by rw [heq]; try rfl, by rw [heq]; try rfl, by rw [heq]; try rfl⟩

theorem C1_engine_classification_witness :
    (processOne [] [⟨"acme".data, 1, 0, 0, 0, 1⟩] [] ⟨"acme".data, ⟨1, 0, 0, 0⟩, 1⟩).1.deliveryStatus
      = DeliveryStatus.Delivered := by
  have h := C1_engine_classification [] [⟨"acme".data, 1, 0, 0, 0, 1⟩] [] []
    ⟨"acme".data, ⟨1, 0, 0, 0⟩, 1⟩
  exact h.1.mpr (by decide)

/-- C2: every planned record yields exactly one row (Delivered or Missed), the
claimed-index list is duplicate-free and within range, every unclaimed
delivery yields exactly one Unplanned row, and the total row count is the
number of planned records plus the number of unclaimed deliveries (which is
the delivery count minus the claimed count). -/
theorem C2_coverage :
    ∀ (ms : List MasterClient) (ds : List Delivery) (plan : List PlanClient),
    (processAll ms ds plan []).1.length = plan.length ∧
    (∀ r ∈ (processAll ms ds plan []).1,
      r.deliveryStatus = DeliveryStatus.Delivered ∨
        r.deliveryStatus = DeliveryStatus.Missed) ∧
    (∀ r ∈ unplannedFrom ms (processAll ms ds plan []).2 ds 0,
      r.deliveryStatus = DeliveryStatus.Unplanned) ∧
    (processAll ms ds plan []).2.Nodup ∧
    (∀ i ∈ (processAll ms ds plan []).2, i < ds.length) ∧
    (compareDeliveries plan ds ms).length =
      plan.length + (unplannedFrom ms (processAll ms ds plan []).2 ds 0).length ∧
    (unplannedFrom ms (processAll ms ds plan []).2 ds 0).length +
      (processAll ms ds plan []).2.length = ds.length ∧
    (processAll ms ds plan []).2.length =
      ((processAll ms ds plan []).1.filter
        (fun r => decide (r.deliveryStatus = DeliveryStatus.Delivered))).length := by
  intro ms ds plan
  obtain ⟨h1, _, h3, h4, h5, h6⟩ := processAll_spec ms ds plan [] List.nodup_nil (by simp)
  refine ⟨h1, ?_, ?_, h4, h5, ?_, ?_, by simpa using h6⟩
  · intro r hr
    rcases h3 r hr with ⟨q, d, rfl⟩ | ⟨q, rfl⟩
    · exact Or.inl (deliveredRowMk_status ms q d)
    · exact Or.inr (missedRowMk_status ms q)
  · intro r hr
    obtain ⟨d, rfl⟩ := unplannedFrom_rows ms _ ds 0 r hr
    exact unplannedRow_status ms d
  · simp [compareDeliveries, List.length_append, h1]
  · have hlen := unplannedFrom_length ms (processAll ms ds plan []).2 ds 0
    have hcc := claimedCount_all (processAll ms ds plan []).2 ds h4 h5
    omega

theorem C2_coverage_witness :
    (compareDeliveries [⟨"acme".data, ⟨1, 0, 0, 0⟩, 1⟩]
      [⟨"nobody".data, 2, 0, 0, 0, 2⟩] []).length = 2 ∧
    (processAll [] [⟨"nobody".data, 2, 0, 0, 0, 2⟩] [⟨"acme".data, ⟨1, 0, 0, 0⟩, 1⟩] []).2.Nodup := by
  have h := C2_coverage [] [⟨"nobody".data, 2, 0, 0, 0, 2⟩] [⟨"acme".data, ⟨1, 0, 0, 0⟩, 1⟩]
  refine ⟨?_, h.2.2.2.1⟩
  rw [h.2.2.2.2.2.1]
  decide

/-- C6: when several unclaimed deliveries tie at the threshold-meeting best
score, the engine deterministically claims the one occurring first in the
delivery list's iteration order (every unclaimed delivery before the claimed
index scores strictly below the maximum, so the claimed index precedes any
tied index). -/
theorem C6_tie_break :
    ∀ (ms : List MasterClient) (ds : List Delivery) (c : List Nat) (p : PlanClient)
      (i j : Nat) (di dj : Delivery),
    ds[i]? = some di → ds[j]? = some dj → i ∉ c → j ∉ c → i < j →
    nameScore p.name di.clientName = specMaxScore p.name ds c →
    nameScore p.name dj.clientName = specMaxScore p.name ds c →
    60 ≤ specMaxScore p.name ds c →
    ∃ k dk, ds[k]? = some dk ∧ k ∉ c ∧ k ≤ i ∧
      processOne ms ds c p = (deliveredRowMk ms p dk, c ++ [k]) ∧
      nameScore p.name dk.clientName = specMaxScore p.name ds c := by
  intro ms ds c p i j di dj hdi hdj hic hjc hij hsci hscj h60
  rcases processOne_cases ms ds c p with
    ⟨k, dk, hget, hkc, heq, hsc, _, hstrict⟩ | ⟨_, hlt⟩
  · refine ⟨k, dk, hget, hkc, ?_, heq, hsc⟩
    by_contra hki
    have := hstrict i di hdi hic (by omega)
    omega
  · omega

theorem C6_tie_break_witness :
    ∃ k dk,
      ([⟨"abcxyz".data, 1, 0, 0, 0, 1⟩, ⟨"abcuvw".data, 1, 0, 0, 0, 1⟩] :
        List Delivery)[k]? = some dk ∧ k ∉ ([] : List Nat) ∧ k ≤ 0 ∧
      processOne [] [⟨"abcxyz".data, 1, 0, 0, 0, 1⟩, ⟨"abcuvw".data, 1, 0, 0, 0, 1⟩] []
          ⟨"abcdef".data, ⟨1, 0, 0, 0⟩, 1⟩ =
        (deliveredRowMk [] ⟨"abcdef".data, ⟨1, 0, 0, 0⟩, 1⟩ dk, [] ++ [k]) ∧
      nameScore "abcdef".data dk.clientName =
        specMaxScore "abcdef".data
          [⟨"abcxyz".data, 1, 0, 0, 0, 1⟩, ⟨"abcuvw".data, 1, 0, 0, 0, 1⟩] [] :=
  C6_tie_break [] [⟨"abcxyz".data, 1, 0, 0, 0, 1⟩, ⟨"abcuvw".data, 1, 0, 0, 0, 1⟩] []
    ⟨"abcdef".data, ⟨1, 0, 0, 0⟩, 1⟩ 0 1
    ⟨"abcxyz".data, 1, 0, 0, 0, 1⟩ ⟨"abcuvw".data, 1, 0, 0, 0, 1⟩
    (by decide) (by decide) (by decide) (by decide) (by decide)
    (by decide) (by decide) (by decide)

/-- C7 counterexample: the claim as stated says the zone of a row whose
directory lookup succeeds equals the entry's location; but for an entry whose
location is the empty string the code's `|| 'Unknown'` fallback fires, so the
row's zone is "Unknown" while the matched entry's location is empty. -/
theorem C7_zone_counterexample :
    findMaster [⟨"abc".data, [], true⟩] "abc".data = some ⟨"abc".data, [], true⟩ ∧
    (compareDeliveries [⟨"abc".data, ⟨1, 0, 0, 0⟩, 1⟩] [] [⟨"abc".data, [], true⟩]).map
      (fun r => r.zone) = ["Unknown".data] ∧
    ([] : List Char) ≠ "Unknown".data := by
  decide

/-- C7 (amended): the directory lookup matches by normalized-name containment
in either direction; a matched row takes the entry's freezer flag, and its
location as zone unless that location is empty, in which case (as when nothing
matches) the zone is "Unknown" and the freezer flag false; a Missed row's
action is urgent_followup exactly when the freezer flag holds, so a planned
freezer client with no delivery yields a Missed row with urgent_followup. -/
theorem C7_directory_followup :
    ∀ (ms : List MasterClient) (ds : List Delivery) (c : List Nat) (p : PlanClient)
      (d : Delivery),
    ((processOne ms ds c p).1.hasFreezr = mcFreezr (findMaster ms p.name)) ∧
    ((processOne ms ds c p).1.zone = mcZone (findMaster ms p.name)) ∧
    ((processOne ms ds c p).1.deliveryStatus = DeliveryStatus.Missed →
      (processOne ms ds c p).1.action =
        (if mcFreezr (findMaster ms p.name) then Action.urgent_followup else Action.followup)) ∧
    ((unplannedRow ms d).hasFreezr = mcFreezr (findMaster ms d.clientName) ∧
      (unplannedRow ms d).zone = mcZone (findMaster ms d.clientName) ∧
      (unplannedRow ms d).action = Action.review) ∧
    (∀ m : MasterClient, mcFreezr (some m) = m.isFreezr ∧
      mcZone (some m) = (if m.location.isEmpty then unknownZone else m.location)) ∧
    (mcFreezr none = false ∧ mcZone none = unknownZone) ∧
    (∀ mc', findMaster ms p.name = some mc' → mc' ∈ ms ∧
      (isSubstrOf (normName p.name) (normName mc'.name) ||
        isSubstrOf (normName mc'.name) (normName p.name)) = true) ∧
    (findMaster ms p.name = none → ∀ mc' ∈ ms,
      (isSubstrOf (normName p.name) (normName mc'.name) ||
        isSubstrOf (normName mc'.name) (normName p.name)) = false) ∧
    (compareDeliveries [⟨"عميل مجمد".data, ⟨1, 0, 0, 0⟩, 1⟩] []
        [⟨"عميل مجمد".data, "Z1".data, true⟩]).map
      (fun r => (r.deliveryStatus, r.action, r.hasFreezr)) =
      [(DeliveryStatus.Missed, Action.urgent_followup, true)] := by
  intro ms ds c p d
  have hrow : (processOne ms ds c p).1.hasFreezr = mcFreezr (findMaster ms p.name) ∧
      (processOne ms ds c p).1.zone = mcZone (findMaster ms p.name) ∧
      ((processOne ms ds c p).1.deliveryStatus = DeliveryStatus.Missed →
        (processOne ms ds c p).1.action =
          (if mcFreezr (findMaster ms p.name) then Action.urgent_followup
           else Action.followup)) := by
    rcases processOne_cases ms ds c p with ⟨i, d', _, _, heq, _, _, _⟩ | ⟨heq, _⟩
    · refine ⟨by rw [heq]; try rfl, by rw [heq]; try rfl, ?_⟩
      intro hM
      rw [heq] at hM
      exact absurd hM (by simp [deliveredRowMk_status])
    · refine ⟨by rw [heq]; try rfl, by rw [heq]; try rfl, fun _ => by rw [heq]; try rfl⟩
  refine ⟨hrow.1, hrow.2.1, hrow.2.2, ⟨rfl, rfl, rfl⟩, fun m => ⟨rfl, rfl⟩, ⟨rfl, rfl⟩,
    ?_, ?_, by decide⟩
  · intro mc' hfind
    rw [findMaster] at hfind
    refine ⟨List.mem_of_find?_eq_some hfind, ?_⟩
    have hp := List.find?_some hfind
    simpa using hp
  · intro hnone mc' hmem
    rw [findMaster] at hnone
    have := List.find?_eq_none.1 hnone mc' hmem
    cases hx : (isSubstrOf (normName p.name) (normName mc'.name) ||
        isSubstrOf (normName mc'.name) (normName p.name)) with
    | true => exact absurd hx this
    | false => rfl

theorem C7_directory_followup_witness :
    (processOne [] [] [] ⟨"x y".data, ⟨1, 0, 0, 0⟩, 1⟩).1.action = Action.followup := by
  have h := C7_directory_followup [] [] [] ⟨"x y".data, ⟨1, 0, 0, 0⟩, 1⟩
    ⟨"zz".data, 1, 0, 0, 0, 1⟩
  rw [h.2.2.1 (by decide)]
  decide

/-- C8: the plan and delivery parsers are total on arbitrary text: empty and
all-whitespace text yield an empty record list, and a record is emitted only
when the cleaned client name has length strictly greater than 1 and the total
quantity is strictly positive. -/
theorem C8_parser_guards :
    (∀ txt : List Char, ∀ r ∈ parsePlanText txt, 1 < r.name.length ∧ 0 < r.totalQuantity) ∧
    (∀ txt : List Char, ∀ r ∈ parseDeliveryReport txt,
      1 < r.clientName.length ∧ 0 < r.totalDelivered) ∧
    parsePlanText [] = [] ∧ parseDeliveryReport [] = [] ∧
    (∀ txt : List Char, (∀ ch ∈ txt, isWS ch = true) →
      parsePlanText txt = [] ∧ parseDeliveryReport txt = []) := by
  refine ⟨?_, ?_, by decide, by decide, ?_⟩
  · intro txt r hr
    obtain ⟨l, _, hrec⟩ := List.mem_filterMap.1 hr
    exact planLineRecord_some hrec
  · intro txt r hr
    obtain ⟨l, _, hrec⟩ := List.mem_filterMap.1 hr
    exact parseDeliveryLine_some hrec
  · intro txt hws
    constructor
    · rw [parsePlanText]
      apply List.filterMap_eq_nil_iff.2
      intro l hl
      exact blank_line_plan (fun ch hch => hws ch (splitOnChar_mem '\n' txt l hl ch hch))
    · rw [parseDeliveryReport]
      apply List.filterMap_eq_nil_iff.2
      intro l hl
      exact blank_line_delivery (fun ch hch => hws ch (splitOnChar_mem '\n' txt l hl ch hch))

theorem C8_parser_guards_witness :
    (1 < (PlanClient.mk "Acme".data ⟨10, 5, 0, 0⟩ 15).name.length ∧
      0 < (PlanClient.mk "Acme".data ⟨10, 5, 0, 0⟩ 15).totalQuantity) ∧
    parsePlanText "  \t ".data = [] := by
  constructor
  · exact C8_parser_guards.1 "Acme\t10\t5\t0\t0".data
      (PlanClient.mk "Acme".data ⟨10, 5, 0, 0⟩ 15) (by decide)
  · exact (C8_parser_guards.2.2.2.2 "  \t ".data (by decide)).1

/-- C10: the output rows preserve input order: the first `plan.length` rows
are the planned records' rows in plan order, followed by the Unplanned rows
of the unclaimed deliveries in delivery-report order (their client names form
an order-preserving sublist of the delivery names). -/
theorem C10_row_order :
    ∀ (ms : List MasterClient) (ds : List Delivery) (plan : List PlanClient),
    (compareDeliveries plan ds ms).take plan.length = (processAll ms ds plan []).1 ∧
    (compareDeliveries plan ds ms).drop plan.length =
      unplannedFrom ms (processAll ms ds plan []).2 ds 0 ∧
    ((compareDeliveries plan ds ms).take plan.length).map (fun r => r.clientName) =
      plan.map (fun q => q.name) ∧
    (∀ r ∈ (compareDeliveries plan ds ms).take plan.length,
      r.deliveryStatus = DeliveryStatus.Delivered ∨
        r.deliveryStatus = DeliveryStatus.Missed) ∧
    (∀ r ∈ (compareDeliveries plan ds ms).drop plan.length,
      r.deliveryStatus = DeliveryStatus.Unplanned) ∧
    List.Sublist
      (((compareDeliveries plan ds ms).drop plan.length).map (fun r => r.clientName))
      (ds.map (fun d => d.clientName)) := by
  intro ms ds plan
  obtain ⟨h1, h2, h3, _, _, _⟩ := processAll_spec ms ds plan [] List.nodup_nil (by simp)
  have htake : (compareDeliveries plan ds ms).take plan.length =
      (processAll ms ds plan []).1 := by
    simp only [compareDeliveries]
    exact List.take_left' h1
  have hdrop : (compareDeliveries plan ds ms).drop plan.length =
      unplannedFrom ms (processAll ms ds plan []).2 ds 0 := by
    simp only [compareDeliveries]
    exact List.drop_left' h1
  refine ⟨htake, hdrop, by rw [htake]; exact h2, ?_, ?_, ?_⟩
  · intro r hr
    rw [htake] at hr
    rcases h3 r hr with ⟨q, d, rfl⟩ | ⟨q, rfl⟩
    · exact Or.inl (deliveredRowMk_status ms q d)
    · exact Or.inr (missedRowMk_status ms q)
  · intro r hr
    rw [hdrop] at hr
    obtain ⟨d, rfl⟩ := unplannedFrom_rows ms _ ds 0 r hr
    exact unplannedRow_status ms d
  · rw [hdrop]
    exact unplannedFrom_names_sublist ms _ ds 0

theorem C10_row_order_witness :
    ((compareDeliveries [⟨"acme".data, ⟨1, 0, 0, 0⟩, 1⟩]
      [⟨"nobody".data, 2, 0, 0, 0, 2⟩] []).take 1).map (fun r => r.clientName) =
      ["acme".data] := by
  have h := C10_row_order [] [⟨"nobody".data, 2, 0, 0, 0, 2⟩]
    [⟨"acme".data, ⟨1, 0, 0, 0⟩, 1⟩]
  have h2 := h.2.2.1
  simpa using h2

end Icebreaker
